import Mathlib

/-!
Shallow embedding of `ffb2fs2ffb.py` (Firefox bookmarks ↔ filesystem mirror).

Bookmark trees are nested dictionaries in the source; here they are the
nested inductive `Node`.  The exporter (`bookmarks2dir` / `build_tree`)
is modelled as a pure function producing the ordered list of file writes
(path segments ↦ pickled record), the importer (`dir2bookmarks` /
`read_container`) as a pure function over an in-memory directory tree
`FsNode` carrying mtime/ctime stamps.  Machine-level library calls
(`unicodedata.normalize(...).encode('ascii','ignore')`, `str(int)`,
`datetime.fromtimestamp`) are modelled explicitly next to their uses.
-/

namespace FFB

/-! ## Character classes of Python 2 `re` (ASCII semantics) and `str` methods -/

/-- Python 2 `\s` on byte strings: `[ \t\n\r\f\v]` (code points
32, 9, 10, 13, 11, 12). -/
def pyIsSpace (c : Char) : Bool :=
  c.toNat = 32 || c.toNat = 9 || c.toNat = 10 || c.toNat = 13 ||
    c.toNat = 11 || c.toNat = 12

/-- Python 2 `\w` on byte strings: `[a-zA-Z0-9_]`. -/
def pyIsWord (c : Char) : Bool :=
  (97 ≤ c.toNat && c.toNat ≤ 122) || (65 ≤ c.toNat && c.toNat ≤ 90) ||
    (48 ≤ c.toNat && c.toNat ≤ 57) || c.toNat = 95

/-- Python 2 `str.lower` on ASCII bytes: `A`-`Z` shift by 32. -/
def lowerAscii (c : Char) : Char :=
  if 65 ≤ c.toNat && c.toNat ≤ 90 then Char.ofNat (c.toNat + 32) else c

/-- Model of `unicodedata.normalize('NFKD', ·)` followed by
`.encode('ascii', 'ignore')`, per character: ASCII code points are fixed,
a sample of accented letters decompose to their base letter (their combining
marks being non-ASCII are dropped by the `'ignore'` encoder), every other
non-ASCII character is dropped. -/
def asciiDecomp (c : Char) : List Char :=
  if c = 'á' || c = 'à' || c = 'â' || c = 'ä' || c = 'ã' || c = 'å' then ['a']
  else if c = 'é' || c = 'è' || c = 'ê' || c = 'ë' then ['e']
  else if c = 'í' || c = 'ì' || c = 'î' || c = 'ï' then ['i']
  else if c = 'ó' || c = 'ò' || c = 'ô' || c = 'ö' || c = 'õ' then ['o']
  else if c = 'ú' || c = 'ù' || c = 'û' || c = 'ü' then ['u']
  else if c = 'ñ' then ['n']
  else if c = 'ç' then ['c']
  else []

/-- One character of `normalize('NFKD', value).encode('ascii', 'ignore')`. -/
def nfkdAsciiChar (c : Char) : List Char :=
  if c.toNat ≤ 127 then [c] else asciiDecomp c

/-- Python `str.strip()`: drop leading and trailing whitespace. -/
def stripChars (l : List Char) : List Char :=
  ((l.dropWhile pyIsSpace).reverse.dropWhile pyIsSpace).reverse

/-- A character matched by the run pattern `[-\s]` (hyphen is 45). -/
def isRunChar (c : Char) : Bool := pyIsSpace c || c.toNat = 45

/-- `re.sub('[-\s]+', '-', ·)`: each maximal run of whitespace/hyphen
characters becomes a single hyphen.  The flag records whether we are in
the middle of a run whose hyphen has already been emitted. -/
def collapseAux : Bool → List Char → List Char
  | _, [] => []
  | inRun, c :: rest =>
    if isRunChar c then
      (if inRun then [] else ['-']) ++ collapseAux true rest
    else
      c :: collapseAux false rest

def collapseDashes (l : List Char) : List Char := collapseAux false l

/-- `slugify` from the source, on character lists:
normalize+ascii-encode, drop `[^\w\s-]`, strip, lowercase, collapse
`[-\s]+` runs to `-`, and truncate to `maxLen` characters. -/
def slugifyChars (l : List Char) (maxLen : Nat) : List Char :=
  let v1 := l.flatMap nfkdAsciiChar
  let v2 := v1.filter (fun c => pyIsWord c || pyIsSpace c || c.toNat = 45)
  let v3 := (stripChars v2).map lowerAscii
  let v4 := collapseDashes v3
  if v4.length > maxLen then v4.take maxLen else v4

/-- `slugify(value, max_filename_length=200)`. -/
def slugify (value : String) (max_filename_length : Nat) : String :=
  ⟨slugifyChars value.data max_filename_length⟩

/-! ## Decimal rendering — model of Python `'%s' % id` for an integer id -/

/-- The decimal digit character for `d < 10`. -/
def digitCh (d : Nat) : Char := Char.ofNat (48 + d)

/-- Big-endian decimal digits of `n` (empty for `0`); the first argument is
fuel, adequate whenever it is at least `n`. -/
def natStrGo : Nat → Nat → List Char
  | 0, _ => []
  | _ + 1, 0 => []
  | fuel + 1, n + 1 => natStrGo fuel ((n + 1) / 10) ++ [digitCh ((n + 1) % 10)]

/-- Decimal rendering of a natural number, as Python `str`. -/
def natStr (n : Nat) : List Char :=
  if n = 0 then ['0'] else natStrGo n n

/-- Decimal rendering of an integer, as Python `str`. -/
def intStr : Int → List Char
  | .ofNat n => natStr n
  | .negSucc n => '-' :: natStr (n + 1)

/-! ## Data model: a bookmark-tree node (a Python dict in the source)

Fields that a node dictionary may or may not carry are `Option`s;
`children` is the ordered child list (a missing `children` key and an
empty one are indistinguishable to every operation in the source, so both
are `[]`). -/

inductive Node : Type where
  | mk : (ntype : Option String) → (nid : Option Int) → (title : String) →
      (uri : Option String) → (dateAdded : Option Int) → (lastModified : Option Int) →
      (parent : Option Int) → (children : List Node) → Node

def Node.ntype : Node → Option String | .mk t _ _ _ _ _ _ _ => t
def Node.nid : Node → Option Int | .mk _ i _ _ _ _ _ _ => i
def Node.title : Node → String | .mk _ _ ti _ _ _ _ _ => ti
def Node.uri : Node → Option String | .mk _ _ _ u _ _ _ _ => u
def Node.dateAdded : Node → Option Int | .mk _ _ _ _ d _ _ _ => d
def Node.lastModified : Node → Option Int | .mk _ _ _ _ _ lm _ _ => lm
def Node.parent : Node → Option Int | .mk _ _ _ _ _ _ p _ => p
def Node.children : Node → List Node | .mk _ _ _ _ _ _ _ cs => cs

/-- `is_bookmark`: the `type` key holds the moz-place marker. -/
def is_bookmark (node : Node) : Bool := node.ntype = some "text/x-moz-place"

/-- `is_container`: the `type` key holds the moz-place-container marker. -/
def is_container (node : Node) : Bool := node.ntype = some "text/x-moz-place-container"

/-- `CONTAINER_FILE_NAME`. -/
def CONTAINER_FILE_NAME : String := "__info__.ffcontainer"

/-- `node_filename`: `'%s__ffid=%s' % (slugify(node['title']), node['id'])`.
(The source reads `node['id']` unconditionally; it is only called on nodes
whose id was just checked to be present, so a missing id renders as the
empty stand-in here.) -/
def node_filename (node : Node) : String :=
  ⟨(slugify node.title 200).data ++ "__ffid=".data ++
    (match node.nid with
     | some i => intStr i
     | none => [])⟩

/-! ## Recursion and traversal helpers on trees -/

mutual
/-- Number of nodes of the tree. -/
def nsize : Node → Nat
  | .mk _ _ _ _ _ _ _ cs => 1 + nsizeL cs

def nsizeL : List Node → Nat
  | [] => 0
  | c :: rest => nsize c + nsizeL rest
end

mutual
/-- The `id` fields in depth-first pre-order (the traversal order of both
`traverse_tree` and `build_tree`); a missing id contributes nothing. -/
def dfsIds : Node → List Int
  | .mk _ i _ _ _ _ _ cs => i.toList ++ dfsIdsL cs

def dfsIdsL : List Node → List Int
  | [] => []
  | c :: rest => dfsIds c ++ dfsIdsL rest
end

mutual
/-- The `id` fields (present or not) in depth-first pre-order. -/
def preIds : Node → List (Option Int)
  | .mk _ i _ _ _ _ _ cs => i :: preIdsL cs

def preIdsL : List Node → List (Option Int)
  | [] => []
  | c :: rest => preIds c ++ preIdsL rest
end

mutual
/-- Every node is tagged as a container or a bookmark. -/
def wellTyped : Node → Bool
  | .mk t _ _ _ _ _ _ cs =>
    (t = some "text/x-moz-place-container" || t = some "text/x-moz-place") && wellTypedL cs

def wellTypedL : List Node → Bool
  | [] => true
  | c :: rest => wellTyped c && wellTypedL rest
end

mutual
/-- Every bookmark node has an empty child list. -/
def leavesOk : Node → Bool
  | .mk t _ _ _ _ _ _ cs =>
    (!(t == some "text/x-moz-place") || cs.isEmpty) && leavesOkL cs

def leavesOkL : List Node → Bool
  | [] => true
  | c :: rest => leavesOk c && leavesOkL rest
end

mutual
/-- Every node carries an id. -/
def idsPresent : Node → Bool
  | .mk _ i _ _ _ _ _ cs => i.isSome && idsPresentL cs

def idsPresentL : List Node → Bool
  | [] => true
  | c :: rest => idsPresent c && idsPresentL rest
end

mutual
/-- Every child's `parent` field equals its parent node's `id` field,
recursively. -/
def childrenParentOk : Node → Bool
  | .mk _ i _ _ _ _ _ cs => childrenParentOkL i cs

def childrenParentOkL : Option Int → List Node → Bool
  | _, [] => true
  | i, c :: rest => (c.parent == i) && childrenParentOk c && childrenParentOkL i rest
end

/-- Rose-tree induction for `Node`. -/
theorem nodeInd (P : Node → Prop)
    (h : ∀ t i ti u d lm p cs, (∀ c, c ∈ cs → P c) → P (.mk t i ti u d lm p cs)) :
    ∀ n, P n
  | .mk t i ti u d lm p cs => h t i ti u d lm p cs (fun c hc => nodeInd P h c)
termination_by n => sizeOf n
decreasing_by
  simp only [Node.mk.sizeOf_spec]
  have h' := List.sizeOf_lt_of_mem hc
  omega

/-! ## `uniquify_ids` — pre-order reassignment of fresh ids

The source mutates a deep copy during `traverse_tree` with a closure
counter starting at `2`: each visited node gets the counter as `id`, its
`parent` key is set to its parent's (already reassigned) id whenever a
parent exists, and the counter is incremented; children are visited
left-to-right.  The root's pre-existing `parent` key is not touched (the
callback's `if parent:` guard is false there). -/

mutual
def assignIds (n : Node) (pid : Option Int) (c : Int) : Node × Int :=
  match n with
  | .mk t _ ti u d lm pp cs =>
    let newPar : Option Int := match pid with | some q => some q | none => pp
    let r := assignIdsL cs (some c) (c + 1)
    (.mk t (some c) ti u d lm newPar r.1, r.2)

def assignIdsL (l : List Node) (pid : Option Int) (c : Int) : List Node × Int :=
  match l with
  | [] => ([], c)
  | x :: xs =>
    let r := assignIds x pid c
    let rs := assignIdsL xs pid r.2
    (r.1 :: rs.1, rs.2)
end

/-- `uniquify_ids`. -/
def uniquify_ids (root : Node) : Node := (assignIds root none 2).1

/-! ## Exporter: `bookmarks2dir` / `build_tree`

A filesystem path is its list of segments.  The exporter is modelled as a
state transformer over the list of file writes performed so far, in
order; under the claims' filesystem model (a fresh destination, every
entry's modification time is its creation instant) the write order is
exactly the mtime order.  `ensure_writable_dir` (directory creation) is
modelled as always succeeding: in a fresh destination the exporter only
ever creates directories at paths where nothing exists.  Python
exceptions become the `FFErr` labels; a raised exception aborts the walk
but the writes already performed persist, so `build_tree` returns the
final state together with an optional error. -/

inductive FFErr : Type where
  /-- 'The entry type for ... must be a moz-place-container'. -/
  | notContainer : Option Int → FFErr
  /-- 'Found an entry without id!'. -/
  | noId : FFErr
  /-- 'id ... is not unique'. -/
  | duplicateId : Int → FFErr
  /-- 'The container file ... already exists.'. -/
  | alreadyExists : FFErr
  /-- 'A moz-place node should have no children, but ... has'. -/
  | bookmarkWithChildren : String → FFErr
  /-- 'Unknown bookmark type ... for entry ...'. -/
  | unknownType : Option String → String → FFErr
deriving DecidableEq

/-- Exporter state: the ids seen so far and the files written so far
(in creation order). -/
structure BState : Type where
  seen : List Int
  fs : List (List String × Node)
deriving Inhabited

/-- `node` with its `children` key cleared, as pickled into a container's
info file. -/
def clearNode : Node → Node
  | .mk t i ti u d lm p _ => .mk t i ti u d lm p []

/-- A path exists after the writes `fs` if it is one of the written files
or an ancestor directory of one. -/
def pathExists (fs : List (List String × Node)) (p : List String) : Bool :=
  fs.any (fun w => p.isPrefixOf w.1)

mutual
/-- `build_tree(entry, root_dir, seen_ids)` from the source. -/
def build_tree (entry : Node) (root_dir : List String) (overwrite : Bool)
    (st : BState) : BState × Option FFErr :=
  match entry with
  | .mk t i ti u d lm p cs =>
    if ¬ is_container (.mk t i ti u d lm p cs) then
      (st, some (.notContainer i))
    else
      match i with
      | none => (st, some .noId)
      | some iv =>
        if iv ∈ st.seen then (st, some (.duplicateId iv))
        else
          let st1 : BState := { st with seen := st.seen ++ [iv] }
          let container_file := root_dir ++ [CONTAINER_FILE_NAME]
          if pathExists st1.fs container_file && !overwrite then
            (st1, some .alreadyExists)
          else
            let st2 : BState :=
              { st1 with
                fs := st1.fs ++ [(container_file, clearNode (.mk t i ti u d lm p cs))] }
            build_children cs root_dir overwrite st2

/-- The `for child in children` loop of `build_tree`. -/
def build_children (cs : List Node) (root_dir : List String) (overwrite : Bool)
    (st : BState) : BState × Option FFErr :=
  match cs with
  | [] => (st, none)
  | child :: rest =>
    if is_container child then
      match build_tree child (root_dir ++ [node_filename child]) overwrite st with
      | (st', none) => build_children rest root_dir overwrite st'
      | (st', some e) => (st', some e)
    else if is_bookmark child then
      match child.nid with
      | none => (st, some .noId)
      | some iv =>
        if iv ∈ st.seen then (st, some (.duplicateId iv))
        else
          let st1 : BState := { st with seen := st.seen ++ [iv] }
          if ¬ child.children.isEmpty then
            (st1, some (.bookmarkWithChildren child.title))
          else
            let ffurl := root_dir ++ [(node_filename child).append ".ffurl"]
            build_children rest root_dir overwrite
              { st1 with fs := st1.fs ++ [(ffurl, child)] }
    else
      (st, some (.unknownType child.ntype child.title))
end

/-- `bookmarks2dir` restricted to its core (the json file has been loaded
into `root`, the destination directory `dest_dir` is fresh). -/
def bookmarks2dir (root : Node) (dest_dir : List String) (overwrite : Bool) :
    BState × Option FFErr :=
  build_tree root dest_dir overwrite ⟨[], []⟩

/-! ## The importer's view of the filesystem

A directory tree carrying the stamps `os.path.getmtime`/`getctime`
return, in whole seconds.  A file's content is the record pickled in it
(contents of files the importer never opens are irrelevant but still
carried). -/

inductive FsNode : Type where
  | dir : (mtime : Int) → (ctime : Int) → (entries : List (String × FsNode)) → FsNode
  | file : (mtime : Int) → (record : Node) → FsNode

/-- `os.path.getmtime` of an entry. -/
def fsMtime : FsNode → Int
  | .dir m _ _ => m
  | .file m _ => m

/-- Stable insertion sort by mtime — the model of
`fs_children.sort(key=op.getmtime)` (Python's sort is stable). -/
def insertByMtime (e : String × FsNode) : List (String × FsNode) → List (String × FsNode)
  | [] => [e]
  | x :: xs =>
    if fsMtime x.2 < fsMtime e.2 then x :: insertByMtime e xs else e :: x :: xs

def sortByMtime : List (String × FsNode) → List (String × FsNode)
  | [] => []
  | x :: xs => insertByMtime x (sortByMtime xs)

/-! ## Timestamp conversion

A Python `datetime`/`timedelta` relative to 1970-01-01 is modelled by its
`(days, seconds, microseconds)` components. -/

structure PyDelta : Type where
  days : Int
  seconds : Int
  microseconds : Int

/-- `td_to_microseconds` (the body of `datetime2prtime`). -/
def td_to_microseconds (td : PyDelta) : Int :=
  td.days * 24 * 60 * 60 * 1000000 + td.seconds * 1000000 + td.microseconds

/-- `datetime2prtime(adatetime)`: the microseconds of `adatetime - epoch`. -/
def datetime2prtime (adatetime : PyDelta) : Int := td_to_microseconds adatetime

/-- Model of `datetime.datetime.fromtimestamp` on a whole-second stamp,
under a UTC clock: `t` seconds since the epoch. -/
def fromtimestamp (t : Int) : PyDelta := ⟨t / 86400, t % 86400, 0⟩

/-! ## Importer: `dir2bookmarks` / `read_container` -/

/-- `generate_container_dict` as invoked by `read_container` (only
`title`, `dateAdded` and `lastModified` supplied; no `id`, no `parent`,
no `children` key). -/
def generate_container_dict (title : String) (dateAdded lastModified : Int) : Node :=
  .mk (some "text/x-moz-place-container") none title none
    (some dateAdded) (some lastModified) none []

/-- `fn.partition(sep)[0]`: the part of `fn` before the first occurrence
of `sep` (all of `fn` when `sep` does not occur). -/
def partitionFst (sep : List Char) : List Char → List Char
  | [] => []
  | c :: rest => if sep.isPrefixOf (c :: rest) then [] else c :: partitionFst sep rest

/-- `str.replace('"', "'")`. -/
def replaceQuotes (l : List Char) : List Char :=
  l.map (fun c => if c = '"' then '\'' else c)

/-- `update_title(fn, entry)` of `dir2bookmarks`: when the pre-`__`
segment of the basename differs from the slug of the stored title, the
stored title is overwritten with that segment (quotes replaced).  Here
`fn` is already a basename (a single path segment). -/
def update_title (fn : String) (entry : Node) : Node :=
  if partitionFst "__".data fn.data ≠ (slugify entry.title 200).data then
    match entry with
    | .mk t i _ u d lm p cs => .mk t i ⟨replaceQuotes (partitionFst "__".data fn.data)⟩ u d lm p cs
  else entry

/-- Whether a directory entry name ends in `.ffurl`. -/
def isFfurlName (fn : String) : Bool := ".ffurl".data.isSuffixOf fn.data

/-- The `for fs_child in fs_children` loop of `read_container`;
`rc` is the recursive call used on subdirectories. -/
def read_children (rc : String → FsNode → Except String Node) :
    List (String × FsNode) → Except String (List Node)
  | [] => .ok []
  | (fn, fsn) :: rest =>
    match fsn with
    | .dir m c es =>
      match rc fn (.dir m c es) with
      | .error e => .error e
      | .ok child =>
        match read_children rc rest with
        | .error e => .error e
        | .ok others => .ok (child :: others)
    | .file _ rec =>
      if isFfurlName fn then
        match read_children rc rest with
        | .error e => .error e
        | .ok others => .ok (update_title fn rec :: others)
      else
        read_children rc rest

/-- `read_container(root_dir)`; `name` is the basename of the directory,
`fsn` its filesystem node.  Structural recursion is through `fuel`,
adequate whenever it exceeds the directory nesting depth (see
`fsDepth`). -/
def read_container : Nat → String → FsNode → Except String Node
  | 0, _, _ => .error "out of fuel"
  | fuel + 1, name, fsn =>
    match fsn with
    | .file _ _ => .error "should be a directory, but it is not"
    | .dir m c entries =>
      let base : Except String Node :=
        match entries.find? (fun e => e.1 = CONTAINER_FILE_NAME) with
        | some (_, .file _ rec) => .ok rec
        | some (_, .dir _ _ _) => .error "IOError"
        | none =>
          .ok (generate_container_dict name
            (datetime2prtime (fromtimestamp m)) (datetime2prtime (fromtimestamp c)))
      match base with
      | .error e => .error e
      | .ok base =>
        match read_children (read_container fuel) (sortByMtime entries) with
        | .error e => .error e
        | .ok ff_children =>
          let withKids : Node :=
            match base with
            | .mk t i ti u d lm p _ => .mk t i ti u d lm p ff_children
          .ok (update_title name withKids)

mutual
/-- Nesting depth of a filesystem node (a bare file has depth 1). -/
def fsDepth : FsNode → Nat
  | .file _ _ => 1
  | .dir _ _ entries => 1 + fsDepthL entries

def fsDepthL : List (String × FsNode) → Nat
  | [] => 0
  | e :: rest => max (fsDepth e.2) (fsDepthL rest)
end

/-- `dir2bookmarks` restricted to its core: reconstruct the tree from the
source directory (`name` its basename, `fsn` its filesystem node) and
pass it through `uniquify_ids`; what the source then json-dumps is the
returned tree. -/
def dir2bookmarks (name : String) (fsn : FsNode) : Except String Node :=
  match read_container (fsDepth fsn) name fsn with
  | .error e => .error e
  | .ok t => .ok (uniquify_ids t)

/-! ## Materialization: what directory tree a write sequence leaves behind

This is the claims' filesystem model: starting from a fresh destination,
performing the writes in order, where the `k`-th created entry gets
mtime `k` (entries created earlier have strictly smaller modification
times), and a directory is created the instant its first inner file is
written.  `ctime` is set equal to `mtime` (it is irrelevant: the
exporter gives every directory an info file, so the importer never reads
a ctime of a materialized tree). -/

/-- First occurrences, in order. -/
def firstOccs : List String → List String
  | [] => []
  | s :: rest => s :: (firstOccs rest).filter (fun x => x ≠ s)

/-- Tag each write with its creation instant. -/
def stampWrites : List (List String × Node) → Int → List (Int × List String × Node)
  | [], _ => []
  | w :: rest, t => (t, w.1, w.2) :: stampWrites rest (t + 1)

/-- The heads of the non-empty paths. -/
def headSegs (ws : List (Int × List String × Node)) : List String :=
  ws.filterMap (fun w => w.2.1.head?)

/-- The writes living under segment `s`, with that segment dropped. -/
def selectSeg (s : String) (ws : List (Int × List String × Node)) :
    List (Int × List String × Node) :=
  ws.filterMap (fun w =>
    match w.2.1 with
    | [] => none
    | h :: tl => if h = s then some (w.1, tl, w.2.2) else none)

/-- One directory level of materialization: for each first-occurring
segment, either the file written there or the subdirectory holding the
deeper writes; `mat` materializes the next level down. -/
def matSegs (mat : List (Int × List String × Node) → List (String × FsNode))
    (ws : List (Int × List String × Node)) : List String → List (String × FsNode)
  | [] => []
  | s :: rest =>
    let grp := selectSeg s ws
    let node : FsNode :=
      match grp.find? (fun w => w.2.1.isEmpty) with
      | some (t, _, rec) => .file t rec
      | none =>
        .dir (match grp.head? with | some (t, _, _) => t | none => 0)
             (match grp.head? with | some (t, _, _) => t | none => 0)
             (mat grp)
    (s, node) :: matSegs mat ws rest

/-- The entries of a directory in which the stamped writes `ws` (paths
relative to the directory) were performed, in creation order. -/
def matEntries : Nat → List (Int × List String × Node) → List (String × FsNode)
  | 0, _ => []
  | fuel + 1, ws => matSegs (matEntries fuel) ws (firstOccs (headSegs ws))

/-- Longest path among the writes. -/
def maxPathLen (ws : List (List String × Node)) : Nat :=
  ws.foldr (fun w acc => max w.1.length acc) 0

/-- The directory entries (name ↦ tree) a write sequence creates in a
fresh destination root. -/
def materialize (ws : List (List String × Node)) : List (String × FsNode) :=
  matEntries (maxPathLen ws) (stampWrites ws 0)

/-! ## Specification helpers (not part of the embedded source) -/

/-- The branching structure of a tree together with the bookmark `uri`
values, in order: exactly what the round trip is claimed to preserve. -/
inductive Shape : Type where
  | cont : List Shape → Shape
  | bm : Option String → Shape

mutual
def shapeOf : Node → Shape
  | .mk t _ _ u _ _ _ cs =>
    if t = some "text/x-moz-place" then .bm u else .cont (shapeOfL cs)

def shapeOfL : List Node → List Shape
  | [] => []
  | c :: rest => shapeOf c :: shapeOfL rest
end

/-- The first id repeating an earlier one, scanning `l` with the already
seen ids `seen`. -/
def firstDup (seen : List Int) : List Int → Option Int
  | [] => none
  | x :: xs => if x ∈ seen then some x else firstDup (seen ++ [x]) xs

mutual
/-- The first bookmark with a non-empty child list that `build_tree`
would reach, in traversal order (`none` if the walk never reaches one).
Only defined meaningfully for container roots: the walk enters container
children and inspects bookmark children. -/
def firstBad : Node → Option Node
  | .mk _ _ _ _ _ _ _ cs => firstBadL cs

def firstBadL : List Node → Option Node
  | [] => none
  | c :: rest =>
    if is_container c then
      match firstBad c with
      | some b => some b
      | none => firstBadL rest
    else if is_bookmark c then
      if ¬ c.children.isEmpty then some c else firstBadL rest
    else firstBadL rest
end

/-- A well-formed tree in the sense of the round-trip claim: the root is
a container, every node is a container or a bookmark carrying an id,
bookmarks are leaves, and the ids are pairwise distinct. -/
def goodTree (n : Node) : Prop :=
  is_container n = true ∧ wellTyped n = true ∧ leavesOk n = true ∧
    idsPresent n = true ∧ (dfsIds n).Nodup

instance : DecidablePred goodTree := fun n => by
  unfold goodTree; infer_instance

/-! ## Lemmas about characters -/

theorem char_toNat_ofNat (m : Nat) (h : m < 55296) : (Char.ofNat m).toNat = m := by
  unfold Char.ofNat
  rw [dif_pos (Or.inl h)]
  rfl

theorem char_eq_of_toNat (a b : Char) (h : a.toNat = b.toNat) : a = b := by
  apply Char.eq_of_val_eq
  apply UInt32.eq_of_toBitVec_eq
  apply BitVec.eq_of_toNat_eq
  exact h

/-- The characters a finished slug may contain: lowercase letters,
digits, underscore, hyphen. -/
def slugChar (c : Char) : Bool :=
  (97 ≤ c.toNat && c.toNat ≤ 122) || (48 ≤ c.toNat && c.toNat ≤ 57) ||
    c.toNat = 95 || c.toNat = 45

theorem lowerAscii_toNat (c : Char) :
    (lowerAscii c).toNat = if 65 ≤ c.toNat ∧ c.toNat ≤ 90 then c.toNat + 32 else c.toNat := by
  unfold lowerAscii
  by_cases h : 65 ≤ c.toNat ∧ c.toNat ≤ 90
  · rw [if_pos, if_pos h]
    · exact char_toNat_ofNat _ (by omega)
    · simp only [Bool.and_eq_true, decide_eq_true_eq]
      exact h
  · rw [if_neg, if_neg h]
    simp only [Bool.and_eq_true, decide_eq_true_eq]
    exact h

theorem slugChar_not_space {c : Char} (h : slugChar c = true) : pyIsSpace c = false := by
  simp only [slugChar, Bool.or_eq_true, Bool.and_eq_true, decide_eq_true_eq] at h
  simp only [pyIsSpace, Bool.or_eq_false_iff, decide_eq_false_iff_not]
  omega

theorem slugChar_not_run_or_dash {c : Char} (h : slugChar c = true) (h45 : c.toNat ≠ 45) :
    isRunChar c = false := by
  simp only [slugChar, Bool.or_eq_true, Bool.and_eq_true, decide_eq_true_eq] at h
  simp only [isRunChar, pyIsSpace, Bool.or_eq_false_iff, decide_eq_false_iff_not]
  omega

theorem lowerAscii_fixed {c : Char} (h : ¬(65 ≤ c.toNat ∧ c.toNat ≤ 90)) :
    lowerAscii c = c := by
  unfold lowerAscii
  rw [if_neg]
  simp only [Bool.and_eq_true, decide_eq_true_eq]
  exact h

/-! ## Lemmas about the slugify pipeline (claims C5 and C9) -/

/-- `NoDD l`: no two adjacent hyphens. -/
def NoDD (l : List Char) : Prop :=
  l.Chain' (fun a b => a.toNat ≠ 45 ∨ b.toNat ≠ 45)

theorem mem_collapseAux {c : Char} :
    ∀ (l : List Char) (b : Bool), c ∈ collapseAux b l →
      c.toNat = 45 ∨ (c ∈ l ∧ isRunChar c = false)
  | [], b => by simp [collapseAux]
  | x :: rest, b => by
    intro hmem
    simp only [collapseAux] at hmem
    by_cases hx : isRunChar x = true
    · rw [if_pos hx] at hmem
      rcases List.mem_append.1 hmem with h1 | h2
      · left
        rcases b with _ | _
        · simp at h1
          rw [h1]
          rfl
        · simp at h1
      · rcases mem_collapseAux rest true h2 with h | ⟨hm, hr⟩
        · exact Or.inl h
        · exact Or.inr ⟨List.mem_cons_of_mem _ hm, hr⟩
    · rw [if_neg hx] at hmem
      rcases List.mem_cons.1 hmem with h1 | h2
      · subst h1
        refine Or.inr ⟨List.mem_cons_self _ _, ?_⟩
        revert hx
        cases isRunChar c
        · intro _; rfl
        · intro hx; exact absurd rfl hx
      · rcases mem_collapseAux rest false h2 with h | ⟨hm, hr⟩
        · exact Or.inl h
        · exact Or.inr ⟨List.mem_cons_of_mem _ hm, hr⟩

theorem head_collapseAux_true :
    ∀ (l : List Char) (x : Char), (collapseAux true l).head? = some x → isRunChar x = false
  | [], x => by simp [collapseAux]
  | c :: rest, x => by
    intro h
    simp only [collapseAux] at h
    by_cases hc : isRunChar c = true
    · rw [if_pos hc] at h
      exact head_collapseAux_true rest x (by simpa using h)
    · rw [if_neg hc] at h
      simp only [List.head?_cons, Option.some_inj] at h
      subst h
      revert hc
      cases isRunChar c
      · intro _; rfl
      · intro hc; exact absurd rfl hc

theorem noDD_collapseAux : ∀ (l : List Char) (b : Bool), NoDD (collapseAux b l)
  | [], b => by simp [collapseAux, NoDD]
  | c :: rest, b => by
    simp only [collapseAux]
    by_cases hc : isRunChar c = true
    · rw [if_pos hc]
      rcases b with _ | _
      · simp only [Bool.false_eq_true, if_false, List.cons_append, List.nil_append]
        rw [NoDD, List.chain'_cons']
        refine ⟨?_, noDD_collapseAux rest true⟩
        intro y hy
        right
        have := head_collapseAux_true rest y hy
        simp only [isRunChar, pyIsSpace, Bool.or_eq_true, decide_eq_true_eq] at this
        simp only [Bool.or_eq_false_iff, decide_eq_false_iff_not] at this
        omega
      · simp only [if_true, List.nil_append]
        exact noDD_collapseAux rest true
    · rw [if_neg hc]
      rw [NoDD, List.chain'_cons']
      refine ⟨?_, noDD_collapseAux rest false⟩
      intro y _
      left
      simp only [isRunChar, pyIsSpace, Bool.or_eq_true, decide_eq_true_eq] at hc
      omega

theorem stripChars_sublist (l : List Char) : List.Sublist (stripChars l) l := by
  unfold stripChars
  have h1 : List.Sublist ((l.dropWhile pyIsSpace).reverse.dropWhile pyIsSpace)
      (l.dropWhile pyIsSpace).reverse := List.dropWhile_sublist _
  have h2 := List.Sublist.reverse h1
  rw [List.reverse_reverse] at h2
  exact h2.trans (List.dropWhile_sublist _)

theorem mem_slugifyChars {c : Char} {l : List Char} {m : Nat}
    (h : c ∈ slugifyChars l m) : slugChar c = true := by
  simp only [slugifyChars] at h
  set v2 := (l.flatMap nfkdAsciiChar).filter
    (fun c => pyIsWord c || pyIsSpace c || c.toNat = 45) with hv2
  have hcol : c ∈ collapseDashes ((stripChars v2).map lowerAscii) := by
    by_cases hl : (collapseDashes ((stripChars v2).map lowerAscii)).length > m
    · rw [if_pos hl] at h
      exact List.mem_of_mem_take h
    · rw [if_neg hl] at h
      exact h
  rcases mem_collapseAux _ false hcol with h45 | ⟨hmem, hrun⟩
  · simp only [slugChar, Bool.or_eq_true, Bool.and_eq_true, decide_eq_true_eq]
    omega
  · rcases List.mem_map.1 hmem with ⟨d, hd, hld⟩
    have hd2 : d ∈ v2 := (stripChars_sublist v2).subset hd
    have hkept := List.of_mem_filter hd2
    simp only [Bool.or_eq_true, Bool.and_eq_true, decide_eq_true_eq, pyIsWord,
      pyIsSpace] at hkept
    subst hld
    have hln := lowerAscii_toNat d
    simp only [isRunChar, pyIsSpace, Bool.or_eq_false_iff, decide_eq_false_iff_not] at hrun
    simp only [slugChar, Bool.or_eq_true, Bool.and_eq_true, decide_eq_true_eq]
    by_cases hcap : 65 ≤ d.toNat ∧ d.toNat ≤ 90
    · rw [if_pos hcap] at hln
      omega
    · rw [if_neg hcap] at hln
      omega

theorem nfkd_slugChar {c : Char} (h : slugChar c = true) : nfkdAsciiChar c = [c] := by
  unfold nfkdAsciiChar
  rw [if_pos]
  simp only [slugChar, Bool.or_eq_true, Bool.and_eq_true, decide_eq_true_eq] at h
  omega

theorem lowerAscii_slugChar {c : Char} (h : slugChar c = true) : lowerAscii c = c := by
  apply lowerAscii_fixed
  simp only [slugChar, Bool.or_eq_true, Bool.and_eq_true, decide_eq_true_eq] at h
  omega

theorem kept_slugChar {c : Char} (h : slugChar c = true) :
    (pyIsWord c || pyIsSpace c || decide (c.toNat = 45)) = true := by
  simp only [slugChar, Bool.or_eq_true, Bool.and_eq_true, decide_eq_true_eq] at h
  simp only [pyIsWord, pyIsSpace, Bool.or_eq_true, Bool.and_eq_true, decide_eq_true_eq]
  omega

theorem flatMap_nfkd_eq_self {l : List Char} (h : ∀ c ∈ l, nfkdAsciiChar c = [c]) :
    l.flatMap nfkdAsciiChar = l := by
  induction l with
  | nil => rfl
  | cons x xs ih =>
    rw [List.flatMap_cons, h x (List.mem_cons_self _ _),
      ih (fun c hc => h c (List.mem_cons_of_mem _ hc))]
    rfl

theorem dropWhile_eq_self_of {l : List Char} {p : Char → Bool}
    (h : ∀ c ∈ l, p c = false) : l.dropWhile p = l := by
  cases l with
  | nil => rfl
  | cons x xs =>
    apply List.dropWhile_cons_of_neg
    simp [h x (List.mem_cons_self _ _)]

theorem stripChars_eq_self {l : List Char} (h : ∀ c ∈ l, pyIsSpace c = false) :
    stripChars l = l := by
  unfold stripChars
  rw [dropWhile_eq_self_of h,
    dropWhile_eq_self_of (fun c hc => h c (List.mem_reverse.1 hc)),
    List.reverse_reverse]

theorem map_lower_eq_self {l : List Char} (h : ∀ c ∈ l, lowerAscii c = c) :
    l.map lowerAscii = l := by
  conv_rhs => rw [← List.map_id l]
  exact List.map_congr_left (fun a ha => by rw [h a ha]; rfl)

theorem collapseAux_eq_self :
    ∀ l : List Char, (∀ c ∈ l, pyIsSpace c = false) → NoDD l →
      collapseAux false l = l ∧
        ((∀ x ∈ l.head?, x.toNat ≠ 45) → collapseAux true l = l)
  | [], _, _ => ⟨rfl, fun _ => rfl⟩
  | c :: rest, hns, hdd => by
    rcases List.chain'_cons'.1 hdd with ⟨hR, hdd'⟩
    have hrest := collapseAux_eq_self rest
      (fun d hd => hns d (List.mem_cons_of_mem _ hd)) hdd'
    by_cases hc : c.toNat = 45
    · have hrun : isRunChar c = true := by
        simp only [isRunChar, Bool.or_eq_true, decide_eq_true_eq]
        exact Or.inr hc
      have hdc : c = '-' := char_eq_of_toNat c '-' (by rw [hc]; rfl)
      constructor
      · show collapseAux false (c :: rest) = c :: rest
        simp only [collapseAux, if_pos hrun]
        have : collapseAux true rest = rest := by
          apply hrest.2
          intro x hx
          rcases hR x hx with h45 | hxn
          · exact absurd hc h45
          · exact hxn
        rw [this, hdc]
        rfl
      · intro hhd
        exact absurd hc (hhd c rfl)
    · have hrun : isRunChar c = false := by
        simp only [isRunChar, pyIsSpace, Bool.or_eq_false_iff, decide_eq_false_iff_not]
        have := hns c (List.mem_cons_self _ _)
        simp only [pyIsSpace, Bool.or_eq_false_iff, decide_eq_false_iff_not] at this
        omega
      have hstep : ∀ b : Bool, collapseAux b (c :: rest) = c :: collapseAux false rest := by
        intro b
        simp only [collapseAux, hrun]
        rfl
      refine ⟨?_, fun _ => ?_⟩ <;> rw [hstep, hrest.1]

theorem collapseDashes_eq_self {l : List Char}
    (hns : ∀ c ∈ l, pyIsSpace c = false) (hdd : NoDD l) : collapseDashes l = l :=
  (collapseAux_eq_self l hns hdd).1

theorem noDD_slugifyChars (l : List Char) (m : Nat) : NoDD (slugifyChars l m) := by
  simp only [slugifyChars]
  by_cases hl : (collapseDashes ((stripChars
      ((l.flatMap nfkdAsciiChar).filter
        (fun c => pyIsWord c || pyIsSpace c || c.toNat = 45))).map lowerAscii)).length > m
  · rw [if_pos hl]
    exact List.Chain'.prefix (noDD_collapseAux _ false) ( List.take_prefix _ _)
  · rw [if_neg hl]
    exact noDD_collapseAux _ false

theorem slugifyChars_fixed {l : List Char} {m : Nat}
    (hm : (slugifyChars l m).length ≤ m) :
    slugifyChars (slugifyChars l m) m = slugifyChars l m := by
  have hchar : ∀ c ∈ slugifyChars l m, slugChar c = true :=
    fun c hc => mem_slugifyChars hc
  have hdd : NoDD (slugifyChars l m) := noDD_slugifyChars l m
  set s := slugifyChars l m with hs
  show slugifyChars s m = s
  simp only [slugifyChars]
  rw [flatMap_nfkd_eq_self (fun c hc => nfkd_slugChar (hchar c hc))]
  rw [List.filter_eq_self.mpr (fun c hc => kept_slugChar (hchar c hc))]
  rw [stripChars_eq_self (fun c hc => slugChar_not_space (hchar c hc))]
  rw [map_lower_eq_self (fun c hc => lowerAscii_slugChar (hchar c hc))]
  rw [collapseDashes_eq_self (fun c hc => slugChar_not_space (hchar c hc)) hdd]
  rw [if_neg (by omega)]

/-- C5: for every title string `t` such that the length of `slugify(t)`
is at most the maximum filename length (default 200),
`slugify(slugify(t)) = slugify(t)`. -/
theorem claim_C5 (t : String) (h : (slugify t 200).length ≤ 200) :
    slugify (slugify t 200) 200 = slugify t 200 := by
  unfold slugify
  apply congrArg String.mk
  exact slugifyChars_fixed h

/-- Witness for C5 at the concrete title `"Hello World!"`. -/
theorem claim_C5_witness :
    (slugify "Hello World!" 200).length ≤ 200 ∧
      slugify (slugify "Hello World!" 200) 200 = slugify "Hello World!" 200 :=
  ⟨by decide, claim_C5 "Hello World!" (by decide)⟩

/-- C9: for every title string `t`, `slugify(t)` contains no `'='`
character, hence the reserved token `__ffid=` never occurs inside the
slugified-title segment of a generated filename. -/
theorem claim_C9 (t : String) :
    '=' ∉ (slugify t 200).data ∧ ¬ ("__ffid=".data <:+: (slugify t 200).data) := by
  have hne : '=' ∉ (slugify t 200).data := by
    intro hmem
    have hch := mem_slugifyChars (show '=' ∈ slugifyChars t.data 200 from hmem)
    simp only [slugChar, Bool.or_eq_true, Bool.and_eq_true, decide_eq_true_eq] at hch
    have h61 : Char.toNat '=' = 61 := rfl
    omega
  refine ⟨hne, fun hinf => ?_⟩
  exact hne (hinf.sublist.subset (by decide))

/-! ## Lemmas about `uniquify_ids` (claims C2 and C8) -/

/-- The ids `some c, some (c+1), …, some (c+k-1)`. -/
def freshIds (c : Int) (k : Nat) : List (Option Int) :=
  (List.range k).map (fun j : Nat => some (c + (j : Int)))

theorem freshIds_append (c : Int) (a b : Nat) :
    freshIds c (a + b) = freshIds c a ++ freshIds (c + a) b := by
  unfold freshIds
  rw [List.range_add, List.map_append, List.map_map]
  congr 1
  apply List.map_congr_left
  intro j _
  simp only [Function.comp]
  congr 1
  push_cast
  ring

theorem freshIds_one (c : Int) : freshIds c 1 = [some c] := by
  show List.map _ (List.range 1) = _
  rw [show List.range 1 = [0] from rfl]
  simp

theorem assignIdsL_spec (l : List Node)
    (hmem : ∀ x ∈ l, ∀ pid c, (assignIds x pid c).2 = c + nsize x ∧
      preIds (assignIds x pid c).1 = freshIds c (nsize x))
    (pid : Option Int) (c : Int) :
    (assignIdsL l pid c).2 = c + nsizeL l ∧
      preIdsL (assignIdsL l pid c).1 = freshIds c (nsizeL l) := by
  induction l generalizing c with
  | nil => simp [assignIdsL, preIdsL, nsizeL, freshIds]
  | cons x xs ih =>
    have hx := hmem x (List.mem_cons_self _ _) pid c
    have hxs := ih (fun y hy => hmem y (List.mem_cons_of_mem _ hy)) (c + nsize x)
    have hcnt : (assignIdsL (x :: xs) pid c).2 = c + nsizeL (x :: xs) := by
      simp only [assignIdsL]
      rw [hx.1, hxs.1, nsizeL]
      push_cast
      ring
    refine ⟨hcnt, ?_⟩
    show preIdsL (assignIdsL (x :: xs) pid c).1 = _
    simp only [assignIdsL, preIdsL]
    rw [hx.1, hx.2, hxs.2]
    rw [show nsizeL (x :: xs) = nsize x + nsizeL xs from rfl]
    rw [freshIds_append]

theorem assignIds_spec : ∀ (n : Node) (pid : Option Int) (c : Int),
    (assignIds n pid c).2 = c + nsize n ∧
      preIds (assignIds n pid c).1 = freshIds c (nsize n) := by
  intro n
  induction n using nodeInd with
  | h t i ti u d lm p cs ihm =>
    intro pid c
    have hl := assignIdsL_spec cs ihm (some c) (c + 1)
    constructor
    · show (assignIds (.mk t i ti u d lm p cs) pid c).2 = _
      simp only [assignIds]
      rw [hl.1, nsize]
      push_cast
      ring
    · show preIds (assignIds (.mk t i ti u d lm p cs) pid c).1 = _
      simp only [assignIds, preIds]
      rw [hl.2, nsize]
      rw [show (1 : Nat) + nsizeL cs = 1 + nsizeL cs from rfl, freshIds_append,
        freshIds_one, List.singleton_append]
      norm_num

theorem parentOk_assignIdsL (l : List Node)
    (hmem : ∀ x ∈ l, ∀ pid c, childrenParentOk (assignIds x pid c).1 = true)
    (q c : Int) :
    childrenParentOkL (some q) (assignIdsL l (some q) c).1 = true := by
  induction l generalizing c with
  | nil => rfl
  | cons x xs ih =>
    show childrenParentOkL (some q) (assignIdsL (x :: xs) (some q) c).1 = true
    simp only [assignIdsL, childrenParentOkL, Bool.and_eq_true]
    refine ⟨⟨?_, hmem x (List.mem_cons_self _ _) (some q) c⟩,
      ih (fun y hy => hmem y (List.mem_cons_of_mem _ hy)) _⟩
    cases x with
    | mk t i ti u d lm pp cs =>
      show ((assignIds (.mk t i ti u d lm pp cs) (some q) c).1.parent == some q) = true
      simp [assignIds, Node.parent]

theorem parentOk_assignIds : ∀ (n : Node) (pid : Option Int) (c : Int),
    childrenParentOk (assignIds n pid c).1 = true := by
  intro n
  induction n using nodeInd with
  | h t i ti u d lm p cs ihm =>
    intro pid c
    show childrenParentOk (assignIds (.mk t i ti u d lm p cs) pid c).1 = true
    simp only [assignIds, childrenParentOk]
    exact parentOk_assignIdsL cs ihm c (c + 1)

/-- C2: after `uniquify_ids`, the pre-order id sequence is the fresh,
strictly increasing run `2, 3, …` (depending only on the tree's size,
not on any prior ids), all ids are pairwise distinct, and every
non-root node's `parent` field equals its actual parent's freshly
assigned id. -/
theorem claim_C2 (n : Node) :
    preIds (uniquify_ids n) = freshIds 2 (nsize n) ∧
      (preIds (uniquify_ids n)).Nodup ∧
      childrenParentOk (uniquify_ids n) = true := by
  have h := assignIds_spec n none 2
  refine ⟨h.2, ?_, parentOk_assignIds n none 2⟩
  show (preIds (assignIds n none 2).1).Nodup
  rw [h.2]
  unfold freshIds
  apply List.Nodup.map
  · intro a b hab
    simp only [Option.some_inj, add_right_inj, Nat.cast_inj] at hab
    exact hab
  · exact List.nodup_range _

/-- C8 as stated is false: `uniquify_ids` does not clear a pre-existing
`parent` key on the root (the `if parent:` guard skips the root), so a
root imported with `parent = 99` keeps it. -/
theorem claim_C8_counterexample :
    (uniquify_ids (.mk (some "text/x-moz-place-container") (some 1) "root" none
      none none (some 99) [])).parent ≠ none := by decide

/-- C8 amended: after `uniquify_ids` the root's `parent` field is left
exactly as it was in the input (in particular unset when it was unset),
while every other node's `parent` field is set to its immediate parent's
freshly assigned id. -/
theorem claim_C8_amended (n : Node) :
    (uniquify_ids n).parent = n.parent ∧ childrenParentOk (uniquify_ids n) = true := by
  constructor
  · cases n with
    | mk t i ti u d lm pp cs => rfl
  · exact parentOk_assignIds n none 2

/-! ## The decimal rendering is injective and digit-only -/

theorem digitCh_toNat {d : Nat} (h : d < 10) : (digitCh d).toNat = 48 + d :=
  char_toNat_ofNat _ (by omega)

theorem natStrGo_eq_digits : ∀ (fuel n : Nat), n ≤ fuel →
    natStrGo fuel n = ((Nat.digits 10 n).map digitCh).reverse
  | 0, n, h => by
    interval_cases n
    simp [natStrGo]
  | fuel + 1, 0, _ => by
    simp [natStrGo]
  | fuel + 1, n + 1, h => by
    show natStrGo fuel ((n + 1) / 10) ++ [digitCh ((n + 1) % 10)] = _
    rw [natStrGo_eq_digits fuel ((n + 1) / 10) (by
      have := Nat.div_lt_self (Nat.succ_pos n) (by norm_num : 1 < 10)
      omega)]
    rw [Nat.digits_def' (by norm_num : 1 < 10) (Nat.succ_pos n)]
    rw [List.map_cons, List.reverse_cons]

theorem natStr_chars {n : Nat} {c : Char} (h : c ∈ natStr n) :
    48 ≤ c.toNat ∧ c.toNat ≤ 57 := by
  unfold natStr at h
  by_cases h0 : n = 0
  · rw [if_pos h0] at h
    simp only [List.mem_singleton] at h
    subst h
    exact ⟨by decide, by decide⟩
  · rw [if_neg h0, natStrGo_eq_digits n n (le_refl n)] at h
    rw [List.mem_reverse] at h
    rcases List.mem_map.1 h with ⟨d, hd, hdc⟩
    have hlt : d < 10 := Nat.digits_lt_base (by norm_num) hd
    subst hdc
    rw [digitCh_toNat hlt]
    omega

theorem map_digitCh_inj : ∀ (l1 l2 : List Nat), (∀ x ∈ l1, x < 10) → (∀ x ∈ l2, x < 10) →
    l1.map digitCh = l2.map digitCh → l1 = l2
  | [], [], _, _, _ => rfl
  | [], _ :: _, _, _, h => by simp at h
  | _ :: _, [], _, _, h => by simp at h
  | a :: l1, b :: l2, h1, h2, h => by
    simp only [List.map_cons, List.cons.injEq] at h
    have ha := h1 a (List.mem_cons_self _ _)
    have hb := h2 b (List.mem_cons_self _ _)
    have hab : a = b := by
      have := congrArg Char.toNat h.1
      rw [digitCh_toNat ha, digitCh_toNat hb] at this
      omega
    rw [hab, map_digitCh_inj l1 l2 (fun x hx => h1 x (List.mem_cons_of_mem _ hx))
      (fun x hx => h2 x (List.mem_cons_of_mem _ hx)) h.2]

theorem natStr_inj {a b : Nat} (h : natStr a = natStr b) : a = b := by
  unfold natStr at h
  by_cases ha : a = 0 <;> by_cases hb : b = 0
  · omega
  · rw [if_pos ha, if_neg hb, natStrGo_eq_digits b b (le_refl b)] at h
    have : Nat.digits 10 b = [0] := by
      have h' := congrArg List.reverse h
      rw [List.reverse_reverse] at h'
      have : (Nat.digits 10 b).map digitCh = [0].map digitCh := by
        simpa using h'.symm
      exact map_digitCh_inj _ _ (fun x hx => Nat.digits_lt_base (by norm_num) hx)
        (by intro x hx; simp at hx; omega) this
    have h0b := Nat.ofDigits_digits 10 b
    rw [this] at h0b
    simp [Nat.ofDigits] at h0b
    omega
  · rw [if_neg ha, if_pos hb, natStrGo_eq_digits a a (le_refl a)] at h
    have : Nat.digits 10 a = [0] := by
      have h' := congrArg List.reverse h
      rw [List.reverse_reverse] at h'
      have : (Nat.digits 10 a).map digitCh = [0].map digitCh := by
        simpa using h'
      exact map_digitCh_inj _ _ (fun x hx => Nat.digits_lt_base (by norm_num) hx)
        (by intro x hx; simp at hx; omega) this
    have h0a := Nat.ofDigits_digits 10 a
    rw [this] at h0a
    simp [Nat.ofDigits] at h0a
    omega
  · rw [if_neg ha, if_neg hb, natStrGo_eq_digits a a (le_refl a),
      natStrGo_eq_digits b b (le_refl b)] at h
    have h' := congrArg List.reverse h
    rw [List.reverse_reverse, List.reverse_reverse] at h'
    have hd := map_digitCh_inj _ _ (fun x hx => Nat.digits_lt_base (by norm_num) hx)
      (fun x hx => Nat.digits_lt_base (by norm_num) hx) h'
    have h1 := Nat.ofDigits_digits 10 a
    have h2 := Nat.ofDigits_digits 10 b
    rw [← h1, ← h2, hd]

theorem natStr_ne_nil (n : Nat) : natStr n ≠ [] := by
  unfold natStr
  by_cases h0 : n = 0
  · rw [if_pos h0]
    simp
  · rw [if_neg h0, natStrGo_eq_digits n n (le_refl n)]
    simp only [ne_eq, List.reverse_eq_nil_iff, List.map_eq_nil_iff]
    exact Nat.digits_ne_nil_iff_ne_zero.2 h0

theorem intStr_inj {a b : Int} (h : intStr a = intStr b) : a = b := by
  cases a with
  | ofNat a =>
    cases b with
    | ofNat b =>
      simp only [intStr] at h
      rw [natStr_inj h]
    | negSucc b =>
      exfalso
      simp only [intStr] at h
      rcases hx : natStr a with _ | ⟨c, rest⟩
      · exact natStr_ne_nil a hx
      · rw [hx] at h
        have hc : c ∈ natStr a := by rw [hx]; exact List.mem_cons_self _ _
        have := natStr_chars hc
        have h45 : c = '-' := by
          have := List.head_eq_of_cons_eq h.symm
          exact this.symm
        rw [h45] at this
        revert this
        decide
  | negSucc a =>
    cases b with
    | ofNat b =>
      exfalso
      simp only [intStr] at h
      rcases hx : natStr b with _ | ⟨c, rest⟩
      · exact natStr_ne_nil b hx
      · rw [hx] at h
        have hc : c ∈ natStr b := by rw [hx]; exact List.mem_cons_self _ _
        have := natStr_chars hc
        have h45 : c = '-' := by
          have := List.head_eq_of_cons_eq h
          exact this.symm
        rw [h45] at this
        revert this
        decide
    | negSucc b =>
      simp only [intStr, List.cons.injEq] at h
      have hab := natStr_inj h.2
      have : a = b := by omega
      rw [this]

theorem intStr_chars {i : Int} {c : Char} (h : c ∈ intStr i) :
    c.toNat = 45 ∨ (48 ≤ c.toNat ∧ c.toNat ≤ 57) := by
  cases i with
  | ofNat n => exact Or.inr (natStr_chars h)
  | negSucc n =>
    simp only [intStr, List.mem_cons] at h
    rcases h with h | h
    · subst h
      left
      rfl
    · exact Or.inr (natStr_chars h)

/-! ## Facts about generated filenames -/

/-- The characters after the last `'='` (61). -/
def afterLastEq (l : List Char) : List Char :=
  (l.reverse.takeWhile (fun c => c.toNat ≠ 61)).reverse

theorem takeWhile_append_all {p : Char → Bool} :
    ∀ {l1 l2 : List Char}, (∀ x ∈ l1, p x = true) →
      (l1 ++ l2).takeWhile p = l1 ++ l2.takeWhile p
  | [], l2, _ => by simp
  | x :: l1, l2, h => by
    rw [List.cons_append, List.takeWhile_cons_of_pos (h x (List.mem_cons_self _ _)),
      takeWhile_append_all (fun y hy => h y (List.mem_cons_of_mem _ hy)),
      List.cons_append]

theorem afterLastEq_spec {s d : List Char} (hd : ∀ c ∈ d, c.toNat ≠ 61) :
    afterLastEq (s ++ '=' :: d) = d := by
  unfold afterLastEq
  rw [List.reverse_append, List.reverse_cons, List.append_assoc]
  rw [takeWhile_append_all (fun c hc => by
    simp only [decide_eq_true_eq]
    exact hd c (List.mem_reverse.1 hc))]
  rw [show (['='] ++ s.reverse).takeWhile (fun c => decide (c.toNat ≠ 61)) = [] from rfl]
  rw [List.append_nil, List.reverse_reverse]

theorem afterLastEq_fname (s : List Char) (i : Int) :
    afterLastEq (s ++ ("__ffid=".data ++ intStr i)) = intStr i := by
  rw [show ("__ffid=".data : List Char) = "__ffid".data ++ ['='] from rfl]
  rw [List.append_assoc, ← List.append_assoc s]
  rw [show ((['='] ++ intStr i : List Char)) = '=' :: intStr i from rfl]
  apply afterLastEq_spec
  intro c hc
  rcases intStr_chars hc with h | h <;> omega

theorem node_filename_inj {a b : Node} {ia ib : Int}
    (ha : a.nid = some ia) (hb : b.nid = some ib)
    (h : node_filename a = node_filename b) : ia = ib := by
  have hd := congrArg String.data h
  simp only [node_filename, ha, hb] at hd
  have h1 := afterLastEq_fname (slugify a.title 200).data ia
  have h2 := afterLastEq_fname (slugify b.title 200).data ib
  rw [← List.append_assoc] at h1 h2
  rw [hd] at h1
  rw [h1] at h2
  exact intStr_inj h2

theorem node_filename_no_dot {n : Node} {c : Char}
    (h : c ∈ (node_filename n).data) : c.toNat ≠ 46 := by
  simp only [node_filename] at h
  rcases List.mem_append.1 h with h | h
  rcases List.mem_append.1 h with h | h
  · have hs := mem_slugifyChars (show c ∈ slugifyChars n.title.data 200 from h)
    simp only [slugChar, Bool.or_eq_true, Bool.and_eq_true, decide_eq_true_eq] at hs
    omega
  · have hall : ∀ x ∈ "__ffid=".data, x.toNat ≠ 46 := by decide
    exact hall c h
  · rcases hn : n.nid with _ | i
    · rw [hn] at h
      simp at h
    · rw [hn] at h
      rcases intStr_chars h with h46 | h46 <;> omega

theorem fname_ne_info (n : Node) : node_filename n ≠ CONTAINER_FILE_NAME := by
  intro h
  have hdot : '.' ∈ CONTAINER_FILE_NAME.data := by decide
  rw [← congrArg String.data h] at hdot
  exact node_filename_no_dot hdot (by decide)

theorem data_append (s t : String) : (s.append t).data = s.data ++ t.data := by
  cases s
  cases t
  rfl

theorem fname_ne_ffurl (a b : Node) :
    node_filename a ≠ (node_filename b).append ".ffurl" := by
  intro h
  have hd := congrArg String.data h
  rw [data_append] at hd
  have hdot : '.' ∈ (node_filename b).data ++ ".ffurl".data :=
    List.mem_append.2 (Or.inr (by decide))
  rw [← hd] at hdot
  exact node_filename_no_dot hdot (by decide)

theorem ffurl_ne_info (n : Node) :
    (node_filename n).append ".ffurl" ≠ CONTAINER_FILE_NAME := by
  intro h
  have hd := congrArg String.data h
  rw [data_append] at hd
  have h1 : ((node_filename n).data ++ ".ffurl".data).reverse.head? = some 'l' := by
    rw [List.reverse_append]
    rfl
  rw [hd] at h1
  revert h1
  decide

theorem ffurl_append_inj {a b : Node} {ia ib : Int}
    (ha : a.nid = some ia) (hb : b.nid = some ib)
    (h : (node_filename a).append ".ffurl" = (node_filename b).append ".ffurl") :
    ia = ib := by
  have hd := congrArg String.data h
  rw [data_append, data_append] at hd
  have hfn : node_filename a = node_filename b := by
    have := List.append_cancel_right hd
    calc node_filename a = ⟨(node_filename a).data⟩ := rfl
      _ = ⟨(node_filename b).data⟩ := by rw [this]
      _ = node_filename b := rfl
  exact node_filename_inj ha hb hfn


/-! ## Characterizing the exporter on well-formed trees

`W n dir` is the list of file writes `build_tree` performs, in order,
when exporting the subtree `n` into directory `dir` without incident. -/

mutual
def W : Node → List String → List (List String × Node)
  | .mk t i ti u d lm p cs, dir =>
    (dir ++ [CONTAINER_FILE_NAME], clearNode (.mk t i ti u d lm p cs)) :: WL cs dir

def WL : List Node → List String → List (List String × Node)
  | [], _ => []
  | c :: rest, dir =>
    (if is_container c then W c (dir ++ [node_filename c])
     else if is_bookmark c then [(dir ++ [(node_filename c).append ".ffurl"], c)]
     else []) ++ WL rest dir
end

/-- Nothing among the writes `fs` lives at or below `dir`. -/
def cleanFor (fs : List (List String × Node)) (dir : List String) : Prop :=
  ∀ w ∈ fs, ¬ (dir <+: w.1)

theorem cleanFor_nil (dir : List String) : cleanFor [] dir := by
  intro w hw
  simp at hw

theorem cleanFor_extend {fs : List (List String × Node)} {dir : List String}
    (h : cleanFor fs dir) (tail : List String) : cleanFor fs (dir ++ tail) := by
  intro w hw hpre
  exact h w hw ((List.prefix_append dir tail).trans hpre)

theorem WL_mem_shape (cs : List Node)
    (hmem : ∀ c ∈ cs, ∀ dir w, w ∈ W c dir → ∃ s rest, w.1 = dir ++ s :: rest) :
    ∀ dir w, w ∈ WL cs dir →
      ∃ c ∈ cs, (is_container c = true ∧ ∃ tail, w.1 = dir ++ node_filename c :: tail) ∨
        (is_bookmark c = true ∧ w.1 = dir ++ [(node_filename c).append ".ffurl"]) := by
  induction cs with
  | nil =>
    intro dir w hw
    simp [WL] at hw
  | cons c rest ih =>
    intro dir w hw
    simp only [WL] at hw
    rcases List.mem_append.1 hw with hw | hw
    · refine ⟨c, List.mem_cons_self _ _, ?_⟩
      by_cases hc : is_container c = true
      · rw [if_pos hc] at hw
        left
        refine ⟨hc, ?_⟩
        rcases hmem c (List.mem_cons_self _ _) _ _ hw with ⟨s, tl, hs⟩
        rw [hs, List.append_assoc]
        exact ⟨s :: tl, rfl⟩
      · rw [if_neg hc] at hw
        by_cases hb : is_bookmark c = true
        · rw [if_pos hb] at hw
          simp only [List.mem_singleton] at hw
          right
          exact ⟨hb, by rw [hw]⟩
        · rw [if_neg hb] at hw
          simp at hw
    · rcases ih (fun x hx => hmem x (List.mem_cons_of_mem _ hx)) dir w hw with ⟨x, hx, hxp⟩
      exact ⟨x, List.mem_cons_of_mem _ hx, hxp⟩

theorem W_shape : ∀ (n : Node) (dir : List String) (w : List String × Node),
    w ∈ W n dir → ∃ s rest, w.1 = dir ++ s :: rest := by
  intro n
  induction n using nodeInd with
  | h t i ti u d lm p cs ihm =>
    intro dir w hw
    simp only [W, List.mem_cons] at hw
    rcases hw with hw | hw
    · rw [hw]
      exact ⟨CONTAINER_FILE_NAME, [], rfl⟩
    · rcases WL_mem_shape cs (fun c hc => ihm c hc) dir w hw with ⟨c, _, hp | hp⟩
      · rcases hp.2 with ⟨tail, htail⟩
        exact ⟨node_filename c, tail, htail⟩
      · exact ⟨(node_filename c).append ".ffurl", [], hp.2⟩

theorem WL_mem_cases (cs : List Node) (dir : List String) (w : List String × Node)
    (hw : w ∈ WL cs dir) :
    ∃ c ∈ cs, (is_container c = true ∧ ∃ tail, w.1 = dir ++ node_filename c :: tail) ∨
      (is_bookmark c = true ∧ w.1 = dir ++ [(node_filename c).append ".ffurl"]) :=
  WL_mem_shape cs (fun c _ => W_shape c) dir w hw


theorem pathExists_false_of_clean {fs : List (List String × Node)} {dir p : List String}
    (h : cleanFor fs dir) (hp : dir <+: p) : pathExists fs p = false := by
  rw [pathExists, List.any_eq_false]
  intro w hw htrue
  exact h w hw (hp.trans ( List.isPrefixOf_iff_prefix.1 htrue))

theorem nid_isSome_of_idsPresent {n : Node} (h : idsPresent n = true) :
    ∃ iv, n.nid = some iv := by
  cases n with
  | mk t i ti u d lm p cs =>
    simp only [idsPresent, Bool.and_eq_true, Option.isSome_iff_exists] at h
    exact h.1

theorem idsPresentL_mem : ∀ {cs : List Node} {c : Node},
    idsPresentL cs = true → c ∈ cs → idsPresent c = true := by
  intro cs
  induction cs with
  | nil =>
    intro c _ hc
    simp at hc
  | cons a b ih =>
    intro c h hc
    simp only [idsPresentL, Bool.and_eq_true] at h
    rcases List.mem_cons.1 hc with h1 | h1
    · rw [h1]
      exact h.1
    · exact ih h.2 h1

theorem mem_dfsIdsL_of_mem : ∀ {cs : List Node} {c : Node} {iv : Int},
    c ∈ cs → c.nid = some iv → iv ∈ dfsIdsL cs := by
  intro cs
  induction cs with
  | nil =>
    intro c iv hc _
    simp at hc
  | cons a b ih =>
    intro c iv hc hiv
    rw [show dfsIdsL (a :: b) = dfsIds a ++ dfsIdsL b from rfl]
    rcases List.mem_cons.1 hc with h1 | h1
    · apply List.mem_append.2 (Or.inl ?_)
      rw [← h1]
      cases c with
      | mk tc ic tic uc dc lmc pc csc =>
        cases hiv
        exact List.mem_cons_self _ _
    · exact List.mem_append.2 (Or.inr (ih h1 hiv))

theorem dfsIds_self_mem {c : Node} {iv : Int} (hiv : c.nid = some iv) :
    iv ∈ dfsIds c := by
  cases c with
  | mk tc ic tic uc dc lmc pc csc =>
    cases hiv
    exact List.mem_cons_self _ _

theorem dfsIdsL_cons (c : Node) (rest : List Node) :
    dfsIdsL (c :: rest) = dfsIds c ++ dfsIdsL rest := rfl

theorem dfsIds_cons {t : Option String} {iv : Int} {ti : String} {u : Option String}
    {d lm p : Option Int} {cs : List Node} :
    dfsIds (.mk t (some iv) ti u d lm p cs) = iv :: dfsIdsL cs := rfl

/-- What `build_tree` does on the children of a well-formed subtree
whose ids are globally fresh: it succeeds, records exactly the
children's pre-order ids, and appends exactly the writes `WL`. -/
theorem build_children_ok (cs : List Node)
    (hmem : ∀ c ∈ cs, ∀ (dir : List String) (ow : Bool) (st : BState),
      wellTyped c = true → leavesOk c = true → idsPresent c = true →
      is_container c = true → (dfsIds c).Nodup → (∀ j ∈ dfsIds c, j ∉ st.seen) →
      cleanFor st.fs dir →
      build_tree c dir ow st = ({ seen := st.seen ++ dfsIds c, fs := st.fs ++ W c dir }, none)) :
    ∀ (dir : List String) (ow : Bool) (st : BState),
      wellTypedL cs = true → leavesOkL cs = true → idsPresentL cs = true →
      (dfsIdsL cs).Nodup → (∀ j ∈ dfsIdsL cs, j ∉ st.seen) →
      (∀ c ∈ cs, is_container c = true → cleanFor st.fs (dir ++ [node_filename c])) →
      build_children cs dir ow st =
        ({ seen := st.seen ++ dfsIdsL cs, fs := st.fs ++ WL cs dir }, none) := by
  induction cs with
  | nil =>
    intro dir ow st _ _ _ _ _ _
    simp [build_children, WL, dfsIdsL]
  | cons c rest ih =>
    intro dir ow st hwt hlv hip hnd hseen hclean
    simp only [wellTypedL, Bool.and_eq_true] at hwt
    simp only [leavesOkL, Bool.and_eq_true] at hlv
    simp only [idsPresentL, Bool.and_eq_true] at hip
    have hnd' := hnd
    rw [dfsIdsL_cons, List.nodup_append] at hnd'
    obtain ⟨iv, hiv⟩ := nid_isSome_of_idsPresent hip.1
    have hivmem : iv ∈ dfsIds c := dfsIds_self_mem hiv
    by_cases hc : is_container c = true
    · have hstep := hmem c (List.mem_cons_self _ _) (dir ++ [node_filename c]) ow st
        hwt.1 hlv.1 hip.1 hc hnd'.1
        (fun j hj => hseen j (by
          rw [dfsIdsL_cons]
          exact List.mem_append.2 (Or.inl hj)))
        (hclean c (List.mem_cons_self _ _) hc)
      show build_children (c :: rest) dir ow st = _
      simp only [build_children, if_pos hc, hstep]
      rw [ih (fun x hx => hmem x (List.mem_cons_of_mem _ hx)) dir ow _
        hwt.2 hlv.2 hip.2 hnd'.2.1 ?seen ?clean]
      · rw [dfsIdsL_cons,
          show WL (c :: rest) dir = W c (dir ++ [node_filename c]) ++ WL rest dir by
            simp only [WL, if_pos hc],
          List.append_assoc, List.append_assoc]
      case seen =>
        intro j hj
        simp only [List.mem_append]
        push_neg
        refine ⟨hseen j (by
          rw [dfsIdsL_cons]
          exact List.mem_append.2 (Or.inr hj)), ?_⟩
        intro hjc
        exact hnd'.2.2 hjc hj
      case clean =>
        intro c2 hc2 hcont2 w hw hpre
        rcases List.mem_append.1 hw with hw | hw
        · exact hclean c2 (List.mem_cons_of_mem _ hc2) hcont2 w hw hpre
        · rcases W_shape c _ w hw with ⟨s, tl, hs⟩
          rw [hs, List.append_assoc] at hpre
          have hpre2 := (List.prefix_append_right_inj dir).1 hpre
          rw [show ([node_filename c] ++ s :: tl) = node_filename c :: s :: tl from rfl,
            List.cons_prefix_cons] at hpre2
          obtain ⟨iv2, hiv2⟩ := nid_isSome_of_idsPresent (idsPresentL_mem hip.2 hc2)
          have hideq := node_filename_inj hiv2 hiv hpre2.1
          have hiv2mem : iv2 ∈ dfsIdsL rest := mem_dfsIdsL_of_mem hc2 hiv2
          rw [hideq] at hiv2mem
          exact hnd'.2.2 hivmem hiv2mem
    · by_cases hb : is_bookmark c = true
      · have hempty : c.children.isEmpty = true := by
          cases c with
          | mk tc ic tic uc dc lmc pc csc =>
            simp only [leavesOk, Bool.and_eq_true, Bool.or_eq_true] at hlv
            rcases hlv.1.1 with h | h
            · exfalso
              simp only [is_bookmark, Node.ntype, decide_eq_true_eq] at hb
              rw [hb] at h
              simp at h
            · exact h
        have hdfsc : dfsIds c = [iv] := by
          cases c with
          | mk tc ic tic uc dc lmc pc csc =>
            cases hiv
            simp only [List.isEmpty_iff] at hempty
            rw [show Node.children (.mk tc (some iv) tic uc dc lmc pc csc) = csc from rfl]
              at hempty
            rw [show dfsIds (.mk tc (some iv) tic uc dc lmc pc csc) =
              iv :: dfsIdsL csc from rfl, hempty]
            rfl
        show build_children (c :: rest) dir ow st = _
        simp only [build_children, if_neg hc, if_pos hb, hiv]
        rw [if_neg (by
          intro hmm
          exact hseen iv (by
            rw [dfsIdsL_cons]
            exact List.mem_append.2 (Or.inl hivmem)) hmm)]
        rw [if_neg (by
          intro hne
          exact hne hempty)]
        rw [ih (fun x hx => hmem x (List.mem_cons_of_mem _ hx)) dir ow _
          hwt.2 hlv.2 hip.2 hnd'.2.1 ?seen2 ?clean2]
        · rw [dfsIdsL_cons,
            show WL (c :: rest) dir =
              [(dir ++ [(node_filename c).append ".ffurl"], c)] ++ WL rest dir by
                simp only [WL, if_neg hc, if_pos hb],
            hdfsc]
          simp [List.append_assoc]
        case seen2 =>
          intro j hj
          simp only [List.mem_append, List.mem_singleton]
          push_neg
          refine ⟨hseen j (by
            rw [dfsIdsL_cons]
            exact List.mem_append.2 (Or.inr hj)), ?_⟩
          intro hjc
          apply hnd'.2.2 ?_ hj
          rw [hjc, hdfsc]
          exact List.mem_cons_self _ _
        case clean2 =>
          intro c2 hc2 hcont2 w hw hpre
          rcases List.mem_append.1 hw with hw | hw
          · exact hclean c2 (List.mem_cons_of_mem _ hc2) hcont2 w hw hpre
          · simp only [List.mem_singleton] at hw
            rw [hw] at hpre
            have hpre2 := (List.prefix_append_right_inj dir).1 hpre
            rw [show ([(node_filename c).append ".ffurl"] : List String) =
              (node_filename c).append ".ffurl" :: [] from rfl,
              List.cons_prefix_cons] at hpre2
            exact fname_ne_ffurl c2 c hpre2.1
      · exfalso
        have hw1 := hwt.1
        cases c with
        | mk tc ic tic uc dc lmc pc csc =>
          simp only [wellTyped, Bool.and_eq_true, Bool.or_eq_true, decide_eq_true_eq] at hw1
          simp only [is_container, is_bookmark, Node.ntype, decide_eq_true_eq] at hc hb
          rcases hw1.1 with h | h
          · exact hc h
          · exact hb h


theorem build_tree_ok : ∀ (n : Node) (dir : List String) (ow : Bool) (st : BState),
    wellTyped n = true → leavesOk n = true → idsPresent n = true →
    is_container n = true → (dfsIds n).Nodup → (∀ j ∈ dfsIds n, j ∉ st.seen) →
    cleanFor st.fs dir →
    build_tree n dir ow st = ({ seen := st.seen ++ dfsIds n, fs := st.fs ++ W n dir }, none) := by
  intro n
  induction n using nodeInd with
  | h t i ti u d lm p cs ihm =>
    intro dir ow st hwt hlv hip hcont hnd hseen hclean
    obtain ⟨iv, hiv⟩ := nid_isSome_of_idsPresent hip
    have hieq : i = some iv := hiv
    subst hieq
    simp only [wellTyped, Bool.and_eq_true] at hwt
    simp only [leavesOk, Bool.and_eq_true] at hlv
    simp only [idsPresent, Bool.and_eq_true] at hip
    rw [dfsIds_cons] at hnd hseen
    show build_tree (.mk t (some iv) ti u d lm p cs) dir ow st = _
    simp only [build_tree]
    rw [if_neg (not_not_intro hcont)]
    rw [if_neg (hseen iv (List.mem_cons_self _ _))]
    have hex : pathExists st.fs (dir ++ [CONTAINER_FILE_NAME]) = false :=
      pathExists_false_of_clean hclean (List.prefix_append dir _)
    rw [if_neg (by
      rw [show (({ st with seen := st.seen ++ [iv] } : BState)).fs = st.fs from rfl, hex]
      simp)]
    have hchildren := build_children_ok cs ihm dir ow
      ({ seen := st.seen ++ [iv],
         fs := st.fs ++ [(dir ++ [CONTAINER_FILE_NAME],
           clearNode (.mk t (some iv) ti u d lm p cs))] })
      hwt.2 hlv.2 hip.2 (List.Nodup.of_cons hnd) ?seen3 ?clean3
    · rw [hchildren]
      rw [show W (.mk t (some iv) ti u d lm p cs) dir =
        (dir ++ [CONTAINER_FILE_NAME], clearNode (.mk t (some iv) ti u d lm p cs)) ::
          WL cs dir from rfl, dfsIds_cons]
      simp [List.append_assoc]
    case seen3 =>
      intro j hj
      simp only [List.mem_append, List.mem_singleton]
      push_neg
      refine ⟨hseen j (List.mem_cons_of_mem _ hj), ?_⟩
      intro hjv
      rw [hjv] at hj
      exact (List.nodup_cons.1 hnd).1 hj
    case clean3 =>
      intro c hc hcont2 w hw hpre
      rcases List.mem_append.1 hw with hw | hw
      · exact cleanFor_extend hclean [node_filename c] w hw hpre
      · simp only [List.mem_singleton] at hw
        rw [hw] at hpre
        have hpre2 := (List.prefix_append_right_inj dir).1 hpre
        rw [show ([CONTAINER_FILE_NAME] : List String) = CONTAINER_FILE_NAME :: [] from rfl,
          List.cons_prefix_cons] at hpre2
        exact fname_ne_info c hpre2.1


/-! ## Lemmas about `firstDup` and `firstBad` -/

theorem firstDup_append : ∀ (seen l1 l2 : List Int),
    firstDup seen (l1 ++ l2) =
      (match firstDup seen l1 with
       | some d => some d
       | none => firstDup (seen ++ l1) l2)
  | seen, [], l2 => by simp [firstDup]
  | seen, x :: xs, l2 => by
    simp only [List.cons_append, firstDup]
    by_cases hx : x ∈ seen
    · rw [if_pos hx, if_pos hx]
    · rw [if_neg hx, if_neg hx]
      rw [show (xs.append l2 : List Int) = xs ++ l2 from rfl]
      rw [firstDup_append (seen ++ [x]) xs l2, List.append_assoc]
      rfl

theorem firstDup_none : ∀ (seen l : List Int),
    firstDup seen l = none ↔ l.Nodup ∧ ∀ j ∈ l, j ∉ seen
  | seen, [] => by simp [firstDup]
  | seen, x :: xs => by
    simp only [firstDup]
    by_cases hx : x ∈ seen
    · rw [if_pos hx]
      simp only [List.nodup_cons]
      constructor
      · intro h
        exact absurd h (by simp)
      · intro h
        exact absurd hx (h.2 x (List.mem_cons_self _ _))
    · rw [if_neg hx, firstDup_none (seen ++ [x]) xs]
      constructor
      · rintro ⟨hnd, hfresh⟩
        refine ⟨List.nodup_cons.2 ⟨?_, hnd⟩, ?_⟩
        · intro hmem
          have := hfresh x hmem
          simp at this
        · intro j hj
          rcases List.mem_cons.1 hj with h | h
          · rw [h]; exact hx
          · intro hjs
            exact hfresh j h (List.mem_append.2 (Or.inl hjs))
      · rintro ⟨hnd, hfresh⟩
        rcases List.nodup_cons.1 hnd with ⟨hxx, hnd'⟩
        refine ⟨hnd', ?_⟩
        intro j hj hjs
        rcases List.mem_append.1 hjs with h | h
        · exact hfresh j (List.mem_cons_of_mem _ hj) h
        · simp only [List.mem_singleton] at h
          rw [h] at hj
          exact hxx hj

mutual
theorem firstBad_props : ∀ {n : Node} {b : Node}, firstBad n = some b →
    is_bookmark b = true ∧ b.children.isEmpty = false
  | .mk t i ti u d lm p cs, b => fun h => firstBadL_props (by
      rw [show firstBad (.mk t i ti u d lm p cs) = firstBadL cs from rfl] at h
      exact h)

theorem firstBadL_props : ∀ {cs : List Node} {b : Node}, firstBadL cs = some b →
    is_bookmark b = true ∧ b.children.isEmpty = false
  | [], b => by intro h; simp [firstBadL] at h
  | c :: rest, b => by
    intro h
    simp only [firstBadL] at h
    by_cases hc : is_container c = true
    · rw [if_pos hc] at h
      rcases hfb : firstBad c with _ | b'
      · rw [hfb] at h
        exact firstBadL_props h
      · rw [hfb] at h
        cases h
        exact firstBad_props hfb
    · rw [if_neg hc] at h
      by_cases hb2 : is_bookmark c = true
      · rw [if_pos hb2] at h
        by_cases he : c.children.isEmpty = true
        · rw [if_neg (by rw [he]; intro hq; exact hq rfl)] at h
          exact firstBadL_props h
        · rw [if_pos (by
            intro hq
            exact he hq)] at h
          cases h
          exact ⟨hb2, Bool.eq_false_iff.2 he⟩
      · rw [if_neg hb2] at h
        exact firstBadL_props h
end

mutual
theorem firstBad_id : ∀ {n : Node} {b : Node}, firstBad n = some b →
    idsPresent n = true → ∃ ib, b.nid = some ib ∧ ib ∈ dfsIds n
  | .mk t i ti u d lm p cs, b => by
    intro h hip
    simp only [idsPresent, Bool.and_eq_true] at hip
    rcases firstBadL_id (show firstBadL cs = some b from h) hip.2 with ⟨ib, hib, hmem⟩
    refine ⟨ib, hib, ?_⟩
    show ib ∈ Option.toList i ++ dfsIdsL cs
    exact List.mem_append.2 (Or.inr hmem)

theorem firstBadL_id : ∀ {cs : List Node} {b : Node}, firstBadL cs = some b →
    idsPresentL cs = true → ∃ ib, b.nid = some ib ∧ ib ∈ dfsIdsL cs
  | [], b => by intro h; simp [firstBadL] at h
  | c :: rest, b => by
    intro h hip
    simp only [idsPresentL, Bool.and_eq_true] at hip
    simp only [firstBadL] at h
    by_cases hc : is_container c = true
    · rw [if_pos hc] at h
      rcases hfb : firstBad c with _ | b'
      · rw [hfb] at h
        rcases firstBadL_id h hip.2 with ⟨ib, hib, hmem⟩
        exact ⟨ib, hib, by rw [dfsIdsL_cons]; exact List.mem_append.2 (Or.inr hmem)⟩
      · rw [hfb] at h
        cases h
        rcases firstBad_id hfb hip.1 with ⟨ib, hib, hmem⟩
        exact ⟨ib, hib, by rw [dfsIdsL_cons]; exact List.mem_append.2 (Or.inl hmem)⟩
    · rw [if_neg hc] at h
      by_cases hb2 : is_bookmark c = true
      · rw [if_pos hb2] at h
        by_cases he : c.children.isEmpty = true
        · rw [if_neg (by rw [he]; intro hq; exact hq rfl)] at h
          rcases firstBadL_id h hip.2 with ⟨ib, hib, hmem⟩
          exact ⟨ib, hib, by rw [dfsIdsL_cons]; exact List.mem_append.2 (Or.inr hmem)⟩
        · rw [if_pos (by intro hq; exact he hq)] at h
          cases h
          rcases nid_isSome_of_idsPresent hip.1 with ⟨ib, hib⟩
          exact ⟨ib, hib, by
            rw [dfsIdsL_cons]
            exact List.mem_append.2 (Or.inl (dfsIds_self_mem hib))⟩
      · rw [if_neg hb2] at h
        rcases firstBadL_id h hip.2 with ⟨ib, hib, hmem⟩
        exact ⟨ib, hib, by rw [dfsIdsL_cons]; exact List.mem_append.2 (Or.inr hmem)⟩
end

mutual
theorem leavesOk_of_noBad : ∀ {n : Node}, wellTyped n = true → firstBad n = none →
    is_container n = true → leavesOk n = true
  | .mk t i ti u d lm p cs => by
    intro hwt hfb hcont
    simp only [wellTyped, Bool.and_eq_true] at hwt
    simp only [leavesOk, Bool.and_eq_true]
    constructor
    · simp only [is_container, Node.ntype, decide_eq_true_eq] at hcont
      simp [hcont]
    · exact leavesOkL_of_noBad hwt.2 hfb

theorem leavesOkL_of_noBad : ∀ {cs : List Node}, wellTypedL cs = true →
    firstBadL cs = none → leavesOkL cs = true
  | [] => by intro _ _; rfl
  | c :: rest => by
    intro hwt hfb
    simp only [wellTypedL, Bool.and_eq_true] at hwt
    simp only [firstBadL] at hfb
    simp only [leavesOkL, Bool.and_eq_true]
    by_cases hc : is_container c = true
    · rw [if_pos hc] at hfb
      rcases hfbc : firstBad c with _ | b'
      · rw [hfbc] at hfb
        refine ⟨leavesOk_of_noBad hwt.1 hfbc hc, leavesOkL_of_noBad hwt.2 hfb⟩
      · rw [hfbc] at hfb
        cases hfb
    · rw [if_neg hc] at hfb
      by_cases hb2 : is_bookmark c = true
      · rw [if_pos hb2] at hfb
        by_cases he : c.children.isEmpty = true
        · rw [if_neg (by rw [he]; intro hq; exact hq rfl)] at hfb
          refine ⟨?_, leavesOkL_of_noBad hwt.2 hfb⟩
          cases c with
          | mk tc ic tic uc dc lmc pc csc =>
            simp only [leavesOk, Bool.and_eq_true, Bool.or_eq_true]
            constructor
            · right
              exact he
            · -- a bookmark with empty children trivially has leavesOkL of []
              have : csc = [] := by
                simpa [Node.children, List.isEmpty_iff] using he
              rw [this]
              rfl
        · rw [if_pos (by intro hq; exact he hq)] at hfb
          cases hfb
      · exfalso
        cases c with
        | mk tc ic tic uc dc lmc pc csc =>
          simp only [wellTyped, Bool.and_eq_true, Bool.or_eq_true, decide_eq_true_eq] at hwt
          simp only [is_container, is_bookmark, Node.ntype, decide_eq_true_eq] at hc hb2
          rcases hwt.1.1 with hq | hq
          · exact hc hq
          · exact hb2 hq
end

theorem clearNode_nid (n : Node) : (clearNode n).nid = n.nid := by
  cases n with
  | mk t i ti u d lm p cs => rfl

theorem WL_records (cs : List Node)
    (hmem : ∀ c ∈ cs, ∀ dir w, w ∈ W c dir → idsPresent c = true →
      ∃ j, w.2.nid = some j ∧ j ∈ dfsIds c) :
    ∀ dir w, w ∈ WL cs dir → idsPresentL cs = true →
      ∃ j, w.2.nid = some j ∧ j ∈ dfsIdsL cs := by
  induction cs with
  | nil =>
    intro dir w hw _
    simp [WL] at hw
  | cons c rest ih =>
    intro dir w hw hip
    simp only [idsPresentL, Bool.and_eq_true] at hip
    simp only [WL] at hw
    rcases List.mem_append.1 hw with hw | hw
    · by_cases hc : is_container c = true
      · rw [if_pos hc] at hw
        rcases hmem c (List.mem_cons_self _ _) _ _ hw hip.1 with ⟨j, hj, hjm⟩
        exact ⟨j, hj, by rw [dfsIdsL_cons]; exact List.mem_append.2 (Or.inl hjm)⟩
      · rw [if_neg hc] at hw
        by_cases hb2 : is_bookmark c = true
        · rw [if_pos hb2] at hw
          simp only [List.mem_singleton] at hw
          rcases nid_isSome_of_idsPresent hip.1 with ⟨j, hj⟩
          refine ⟨j, by rw [hw]; exact hj, ?_⟩
          rw [dfsIdsL_cons]
          exact List.mem_append.2 (Or.inl (dfsIds_self_mem hj))
        · rw [if_neg hb2] at hw
          simp at hw
    · rcases ih (fun x hx => hmem x (List.mem_cons_of_mem _ hx)) dir w hw hip.2
        with ⟨j, hj, hjm⟩
      exact ⟨j, hj, by rw [dfsIdsL_cons]; exact List.mem_append.2 (Or.inr hjm)⟩

theorem W_records : ∀ (n : Node) (dir : List String) (w : List String × Node),
    w ∈ W n dir → idsPresent n = true → ∃ j, w.2.nid = some j ∧ j ∈ dfsIds n := by
  intro n
  induction n using nodeInd with
  | h t i ti u d lm p cs ihm =>
    intro dir w hw hip
    simp only [idsPresent, Bool.and_eq_true, Option.isSome_iff_exists] at hip
    rcases hip.1 with ⟨iv, hiv⟩
    subst hiv
    simp only [W, List.mem_cons] at hw
    rcases hw with hw | hw
    · refine ⟨iv, ?_, by rw [dfsIds_cons]; exact List.mem_cons_self _ _⟩
      rw [hw]
      rfl
    · rcases WL_records cs (fun c hc => ihm c hc) dir w hw hip.2 with ⟨j, hj, hjm⟩
      exact ⟨j, hj, by rw [dfsIds_cons]; exact List.mem_cons_of_mem _ hjm⟩


/-! ## The exporter on a tree with duplicated ids (claim C3) -/

theorem build_children_dup (cs : List Node)
    (hmemDup : ∀ c ∈ cs, ∀ (dir : List String) (ow : Bool) (st : BState) (dv : Int),
      wellTyped c = true → leavesOk c = true → idsPresent c = true →
      is_container c = true →
      firstDup st.seen (dfsIds c) = some dv →
      (∀ j, c.nid = some j → j ∉ st.seen → cleanFor st.fs dir) →
      (build_tree c dir ow st).2 = some (.duplicateId dv)) :
    ∀ (dir : List String) (ow : Bool) (st : BState) (dv : Int),
      wellTypedL cs = true → leavesOkL cs = true → idsPresentL cs = true →
      firstDup st.seen (dfsIdsL cs) = some dv →
      (∀ c ∈ cs, is_container c = true → ∀ j, c.nid = some j → j ∉ st.seen →
        cleanFor st.fs (dir ++ [node_filename c])) →
      (build_children cs dir ow st).2 = some (.duplicateId dv) := by
  induction cs with
  | nil =>
    intro dir ow st dv _ _ _ hdup _
    simp [dfsIdsL, firstDup] at hdup
  | cons c rest ih =>
    intro dir ow st dv hwt hlv hip hdup hclean
    simp only [wellTypedL, Bool.and_eq_true] at hwt
    simp only [leavesOkL, Bool.and_eq_true] at hlv
    simp only [idsPresentL, Bool.and_eq_true] at hip
    obtain ⟨iv, hiv⟩ := nid_isSome_of_idsPresent hip.1
    rw [dfsIdsL_cons, firstDup_append] at hdup
    rcases hsplit : firstDup st.seen (dfsIds c) with _ | d
    · -- no duplicate within `c`: `c` is processed successfully
      rw [hsplit] at hdup
      have hfkinds := (firstDup_none _ _).1 hsplit
      by_cases hc : is_container c = true
      · have hfresh : iv ∉ st.seen := hfkinds.2 iv (dfsIds_self_mem hiv)
        have hok := build_tree_ok c (dir ++ [node_filename c]) ow st
          hwt.1 hlv.1 hip.1 hc hfkinds.1 hfkinds.2
          (hclean c (List.mem_cons_self _ _) hc iv hiv hfresh)
        show (build_children (c :: rest) dir ow st).2 = _
        simp only [build_children, if_pos hc, hok]
        apply ih (fun x hx => hmemDup x (List.mem_cons_of_mem _ hx)) dir ow _ dv
          hwt.2 hlv.2 hip.2 hdup
        intro c2 hc2 hcont2 j2 hj2 hnotin2 w hw hpre
        simp only [List.mem_append] at hnotin2
        push_neg at hnotin2
        rcases List.mem_append.1 hw with hw | hw
        · exact hclean c2 (List.mem_cons_of_mem _ hc2) hcont2 j2 hj2 hnotin2.1 w hw hpre
        · rcases W_shape c _ w hw with ⟨s, tl, hs⟩
          rw [hs, List.append_assoc] at hpre
          have hpre2 := (List.prefix_append_right_inj dir).1 hpre
          rw [show ([node_filename c] ++ s :: tl) = node_filename c :: s :: tl from rfl,
            List.cons_prefix_cons] at hpre2
          have hideq := node_filename_inj hj2 hiv hpre2.1
          exact hnotin2.2 (by rw [hideq]; exact dfsIds_self_mem hiv)
      · by_cases hb : is_bookmark c = true
        · have hempty : c.children.isEmpty = true := by
            cases c with
            | mk tc ic tic uc dc lmc pc csc =>
              simp only [leavesOk, Bool.and_eq_true, Bool.or_eq_true] at hlv
              rcases hlv.1.1 with h | h
              · exfalso
                simp only [is_bookmark, Node.ntype, decide_eq_true_eq] at hb
                rw [hb] at h
                simp at h
              · exact h
          have hdfsc : dfsIds c = [iv] := by
            cases c with
            | mk tc ic tic uc dc lmc pc csc =>
              cases hiv
              simp only [List.isEmpty_iff] at hempty
              rw [show Node.children (.mk tc (some iv) tic uc dc lmc pc csc) = csc
                from rfl] at hempty
              rw [show dfsIds (.mk tc (some iv) tic uc dc lmc pc csc) =
                iv :: dfsIdsL csc from rfl, hempty]
              rfl
          have hfresh : iv ∉ st.seen := hfkinds.2 iv (dfsIds_self_mem hiv)
          show (build_children (c :: rest) dir ow st).2 = _
          simp only [build_children, if_neg hc, if_pos hb, hiv]
          rw [if_neg hfresh, if_neg (by intro hne; exact hne hempty)]
          apply ih (fun x hx => hmemDup x (List.mem_cons_of_mem _ hx)) dir ow _ dv
            hwt.2 hlv.2 hip.2 (by rw [hdfsc] at hdup; exact hdup)
          intro c2 hc2 hcont2 j2 hj2 hnotin2 w hw hpre
          simp only [List.mem_append, List.mem_singleton] at hnotin2
          push_neg at hnotin2
          rcases List.mem_append.1 hw with hw | hw
          · exact hclean c2 (List.mem_cons_of_mem _ hc2) hcont2 j2 hj2 hnotin2.1 w hw hpre
          · simp only [List.mem_singleton] at hw
            rw [hw] at hpre
            have hpre2 := (List.prefix_append_right_inj dir).1 hpre
            rw [show ([(node_filename c).append ".ffurl"] : List String) =
              (node_filename c).append ".ffurl" :: [] from rfl,
              List.cons_prefix_cons] at hpre2
            exact fname_ne_ffurl c2 c hpre2.1
        · exfalso
          have hw1 := hwt.1
          cases c with
          | mk tc ic tic uc dc lmc pc csc =>
            simp only [wellTyped, Bool.and_eq_true, Bool.or_eq_true,
              decide_eq_true_eq] at hw1
            simp only [is_container, is_bookmark, Node.ntype, decide_eq_true_eq] at hc hb
            rcases hw1.1 with h | h
            · exact hc h
            · exact hb h
    · -- the first duplicate occurs inside (or at) `c`
      rw [hsplit] at hdup
      have hdv : d = dv := by
        simpa using hdup
      subst hdv
      by_cases hc : is_container c = true
      · have he := hmemDup c (List.mem_cons_self _ _) (dir ++ [node_filename c]) ow st d
          hwt.1 hlv.1 hip.1 hc hsplit
          (fun j hj hnot => hclean c (List.mem_cons_self _ _) hc j hj hnot)
        show (build_children (c :: rest) dir ow st).2 = _
        simp only [build_children, if_pos hc]
        rcases hbt : build_tree c (dir ++ [node_filename c]) ow st with ⟨st2, e⟩
        rw [hbt] at he
        simp only at he
        rw [he]
      · by_cases hb : is_bookmark c = true
        · have hempty : c.children.isEmpty = true := by
            cases c with
            | mk tc ic tic uc dc lmc pc csc =>
              simp only [leavesOk, Bool.and_eq_true, Bool.or_eq_true] at hlv
              rcases hlv.1.1 with h | h
              · exfalso
                simp only [is_bookmark, Node.ntype, decide_eq_true_eq] at hb
                rw [hb] at h
                simp at h
              · exact h
          have hdfsc : dfsIds c = [iv] := by
            cases c with
            | mk tc ic tic uc dc lmc pc csc =>
              cases hiv
              simp only [List.isEmpty_iff] at hempty
              rw [show Node.children (.mk tc (some iv) tic uc dc lmc pc csc) = csc
                from rfl] at hempty
              rw [show dfsIds (.mk tc (some iv) tic uc dc lmc pc csc) =
                iv :: dfsIdsL csc from rfl, hempty]
              rfl
          rw [hdfsc] at hsplit
          simp only [firstDup] at hsplit
          by_cases hin : iv ∈ st.seen
          · rw [if_pos hin] at hsplit
            have : iv = d := by simpa using hsplit
            subst this
            show (build_children (c :: rest) dir ow st).2 = _
            simp only [build_children, if_neg hc, if_pos hb, hiv]
            rw [if_pos hin]
          · rw [if_neg hin] at hsplit
            simp [firstDup] at hsplit
        · exfalso
          have hw1 := hwt.1
          cases c with
          | mk tc ic tic uc dc lmc pc csc =>
            simp only [wellTyped, Bool.and_eq_true, Bool.or_eq_true,
              decide_eq_true_eq] at hw1
            simp only [is_container, is_bookmark, Node.ntype, decide_eq_true_eq] at hc hb
            rcases hw1.1 with h | h
            · exact hc h
            · exact hb h

theorem build_tree_dup : ∀ (n : Node) (dir : List String) (ow : Bool) (st : BState)
    (dv : Int),
    wellTyped n = true → leavesOk n = true → idsPresent n = true →
    is_container n = true →
    firstDup st.seen (dfsIds n) = some dv →
    (∀ j, n.nid = some j → j ∉ st.seen → cleanFor st.fs dir) →
    (build_tree n dir ow st).2 = some (.duplicateId dv) := by
  intro n
  induction n using nodeInd with
  | h t i ti u d lm p cs ihm =>
    intro dir ow st dv hwt hlv hip hcont hdup hcl
    obtain ⟨iv, hiv⟩ := nid_isSome_of_idsPresent hip
    have hieq : i = some iv := hiv
    subst hieq
    simp only [wellTyped, Bool.and_eq_true] at hwt
    simp only [leavesOk, Bool.and_eq_true] at hlv
    simp only [idsPresent, Bool.and_eq_true] at hip
    rw [dfsIds_cons] at hdup
    simp only [firstDup] at hdup
    show (build_tree (.mk t (some iv) ti u d lm p cs) dir ow st).2 = _
    simp only [build_tree]
    rw [if_neg (not_not_intro hcont)]
    by_cases hin : iv ∈ st.seen
    · rw [if_pos hin] at hdup
      have : iv = dv := by simpa using hdup
      subst this
      rw [if_pos hin]
    · rw [if_neg hin] at hdup
      have hclean := hcl iv rfl hin
      rw [if_neg hin]
      have hex : pathExists st.fs (dir ++ [CONTAINER_FILE_NAME]) = false :=
        pathExists_false_of_clean hclean (List.prefix_append dir _)
      rw [if_neg (by
        rw [show (({ st with seen := st.seen ++ [iv] } : BState)).fs = st.fs from rfl, hex]
        simp)]
      apply build_children_dup cs ihm dir ow _ dv hwt.2 hlv.2 hip.2 hdup
      intro c hc hcont2 j hj hnotin w hw hpre
      simp only [List.mem_append, List.mem_singleton] at hnotin
      push_neg at hnotin
      rcases List.mem_append.1 hw with hw | hw
      · exact cleanFor_extend hclean [node_filename c] w hw hpre
      · simp only [List.mem_singleton] at hw
        rw [hw] at hpre
        have hpre2 := (List.prefix_append_right_inj dir).1 hpre
        rw [show ([CONTAINER_FILE_NAME] : List String) = CONTAINER_FILE_NAME :: [] from rfl,
          List.cons_prefix_cons] at hpre2
        exact fname_ne_info c hpre2.1


/-- C3: exporting any (otherwise well-formed) tree in which an id
repeats fails with `DuplicateId` carrying the first id that is
encountered for a second time during the depth-first pre-order walk; the
set of seen ids is global across the whole traversal, not per subtree. -/
theorem claim_C3 (n : Node) (dv : Int) (dest : List String) (ow : Bool)
    (hwt : wellTyped n = true) (hlv : leavesOk n = true)
    (hip : idsPresent n = true) (hcont : is_container n = true)
    (hdup : firstDup [] (dfsIds n) = some dv) :
    (bookmarks2dir n dest ow).2 = some (.duplicateId dv) := by
  apply build_tree_dup n dest ow ⟨[], []⟩ dv hwt hlv hip hcont hdup
  intro j _ _
  exact cleanFor_nil dest

/-- A tree whose duplicated id `3` spans two sibling subtrees: the
global seen-set detects it where a per-subtree check would not. -/
def dupTree : Node :=
  .mk (some "text/x-moz-place-container") (some 1) "root" none none none none
    [.mk (some "text/x-moz-place-container") (some 2) "A" none none none none
      [.mk (some "text/x-moz-place") (some 3) "x" (some "http://x") none none none []],
     .mk (some "text/x-moz-place-container") (some 4) "B" none none none none
      [.mk (some "text/x-moz-place") (some 3) "y" (some "http://y") none none none []]]

theorem claim_C3_witness :
    (wellTyped dupTree = true ∧ leavesOk dupTree = true ∧ idsPresent dupTree = true ∧
      is_container dupTree = true ∧ firstDup [] (dfsIds dupTree) = some 3) ∧
    (bookmarks2dir dupTree ["dest"] false).2 = some (.duplicateId 3) :=
  ⟨⟨by decide, by decide, by decide, by decide, by decide⟩,
    claim_C3 dupTree 3 ["dest"] false (by decide) (by decide) (by decide) (by decide)
      (by decide)⟩


/-! ## The exporter on a tree with a bookmark that has children (claim C4) -/

theorem build_children_bad (cs : List Node)
    (hmemBad : ∀ c ∈ cs, ∀ (dir : List String) (ow : Bool) (st : BState) (b : Node),
      wellTyped c = true → idsPresent c = true → is_container c = true →
      (dfsIds c).Nodup → (∀ j ∈ dfsIds c, j ∉ st.seen) →
      cleanFor st.fs dir → firstBad c = some b →
      (∀ w ∈ st.fs, w.2 ≠ b) →
      (build_tree c dir ow st).2 = some (.bookmarkWithChildren b.title) ∧
        ∀ w ∈ (build_tree c dir ow st).1.fs, w.2 ≠ b) :
    ∀ (dir : List String) (ow : Bool) (st : BState) (b : Node),
      wellTypedL cs = true → idsPresentL cs = true →
      (dfsIdsL cs).Nodup → (∀ j ∈ dfsIdsL cs, j ∉ st.seen) →
      (∀ c ∈ cs, is_container c = true → cleanFor st.fs (dir ++ [node_filename c])) →
      firstBadL cs = some b →
      (∀ w ∈ st.fs, w.2 ≠ b) →
      (build_children cs dir ow st).2 = some (.bookmarkWithChildren b.title) ∧
        ∀ w ∈ (build_children cs dir ow st).1.fs, w.2 ≠ b := by
  induction cs with
  | nil =>
    intro dir ow st b _ _ _ _ _ hfb _
    simp [firstBadL] at hfb
  | cons c rest ih =>
    intro dir ow st b hwt hip hnd hseen hclean hfb hfs
    simp only [wellTypedL, Bool.and_eq_true] at hwt
    simp only [idsPresentL, Bool.and_eq_true] at hip
    have hnd' := hnd
    rw [dfsIdsL_cons, List.nodup_append] at hnd'
    obtain ⟨iv, hiv⟩ := nid_isSome_of_idsPresent hip.1
    have hivmem : iv ∈ dfsIds c := dfsIds_self_mem hiv
    simp only [firstBadL] at hfb
    by_cases hc : is_container c = true
    · rw [if_pos hc] at hfb
      rcases hfbc : firstBad c with _ | b'
      · -- the bad bookmark is further right: `c` is processed successfully
        rw [hfbc] at hfb
        have hlvc := leavesOk_of_noBad hwt.1 hfbc hc
        have hok := build_tree_ok c (dir ++ [node_filename c]) ow st
          hwt.1 hlvc hip.1 hc hnd'.1
          (fun j hj => hseen j (by
            rw [dfsIdsL_cons]
            exact List.mem_append.2 (Or.inl hj)))
          (hclean c (List.mem_cons_self _ _) hc)
        show (build_children (c :: rest) dir ow st).2 = _ ∧ _
        simp only [build_children, if_pos hc, hok]
        obtain ⟨ib, hib, hibmem⟩ := firstBadL_id hfb hip.2
        apply ih (fun x hx => hmemBad x (List.mem_cons_of_mem _ hx)) dir ow _ b
          hwt.2 hip.2 hnd'.2.1 ?seen4 ?clean4 hfb ?fs4
        case seen4 =>
          intro j hj
          simp only [List.mem_append]
          push_neg
          refine ⟨hseen j (by
            rw [dfsIdsL_cons]
            exact List.mem_append.2 (Or.inr hj)), ?_⟩
          intro hjc
          exact hnd'.2.2 hjc hj
        case clean4 =>
          intro c2 hc2 hcont2 w hw hpre
          rcases List.mem_append.1 hw with hw | hw
          · exact hclean c2 (List.mem_cons_of_mem _ hc2) hcont2 w hw hpre
          · rcases W_shape c _ w hw with ⟨s, tl, hs⟩
            rw [hs, List.append_assoc] at hpre
            have hpre2 := (List.prefix_append_right_inj dir).1 hpre
            rw [show ([node_filename c] ++ s :: tl) = node_filename c :: s :: tl from rfl,
              List.cons_prefix_cons] at hpre2
            obtain ⟨iv2, hiv2⟩ := nid_isSome_of_idsPresent (idsPresentL_mem hip.2 hc2)
            have hideq := node_filename_inj hiv2 hiv hpre2.1
            have hiv2mem : iv2 ∈ dfsIdsL rest := mem_dfsIdsL_of_mem hc2 hiv2
            rw [hideq] at hiv2mem
            exact hnd'.2.2 hivmem hiv2mem
        case fs4 =>
          intro w hw
          rcases List.mem_append.1 hw with hw | hw
          · exact hfs w hw
          · rcases W_records c _ w hw hip.1 with ⟨j, hj, hjm⟩
            intro hwb
            rw [hwb, hib] at hj
            have : j = ib := by simpa using hj.symm
            rw [this] at hjm
            exact hnd'.2.2 hjm hibmem
      · -- the bad bookmark is inside `c`
        rw [hfbc] at hfb
        cases hfb
        have hstep := hmemBad c (List.mem_cons_self _ _) (dir ++ [node_filename c]) ow st b
          hwt.1 hip.1 hc hnd'.1
          (fun j hj => hseen j (by
            rw [dfsIdsL_cons]
            exact List.mem_append.2 (Or.inl hj)))
          (hclean c (List.mem_cons_self _ _) hc) hfbc hfs
        show (build_children (c :: rest) dir ow st).2 = _ ∧ _
        simp only [build_children, if_pos hc]
        rcases hbt : build_tree c (dir ++ [node_filename c]) ow st with ⟨st2, e⟩
        rw [hbt] at hstep
        simp only at hstep
        rw [hstep.1]
        exact ⟨rfl, hstep.2⟩
    · rw [if_neg hc] at hfb
      by_cases hb : is_bookmark c = true
      · rw [if_pos hb] at hfb
        by_cases he : c.children.isEmpty = true
        · -- a well-formed bookmark sibling; the bad one is further right
          rw [if_neg (by rw [he]; intro hq; exact hq rfl)] at hfb
          have hdfsc : dfsIds c = [iv] := by
            cases c with
            | mk tc ic tic uc dc lmc pc csc =>
              cases hiv
              simp only [List.isEmpty_iff] at he
              rw [show Node.children (.mk tc (some iv) tic uc dc lmc pc csc) = csc
                from rfl] at he
              rw [show dfsIds (.mk tc (some iv) tic uc dc lmc pc csc) =
                iv :: dfsIdsL csc from rfl, he]
              rfl
          have hcneb : c ≠ b := by
            intro hcb
            have hbprops := firstBadL_props hfb
            rw [← hcb] at hbprops
            rw [he] at hbprops
            exact absurd hbprops.2 (by simp)
          show (build_children (c :: rest) dir ow st).2 = _ ∧ _
          simp only [build_children, if_neg hc, if_pos hb, hiv]
          rw [if_neg (hseen iv (by
            rw [dfsIdsL_cons]
            exact List.mem_append.2 (Or.inl hivmem)))]
          rw [if_neg (by intro hne; exact hne he)]
          apply ih (fun x hx => hmemBad x (List.mem_cons_of_mem _ hx)) dir ow _ b
            hwt.2 hip.2 hnd'.2.1 ?seen5 ?clean5 hfb ?fs5
          case seen5 =>
            intro j hj
            simp only [List.mem_append, List.mem_singleton]
            push_neg
            refine ⟨hseen j (by
              rw [dfsIdsL_cons]
              exact List.mem_append.2 (Or.inr hj)), ?_⟩
            intro hjc
            apply hnd'.2.2 ?_ hj
            rw [hjc, hdfsc]
            exact List.mem_cons_self _ _
          case clean5 =>
            intro c2 hc2 hcont2 w hw hpre
            rcases List.mem_append.1 hw with hw | hw
            · exact hclean c2 (List.mem_cons_of_mem _ hc2) hcont2 w hw hpre
            · simp only [List.mem_singleton] at hw
              rw [hw] at hpre
              have hpre2 := (List.prefix_append_right_inj dir).1 hpre
              rw [show ([(node_filename c).append ".ffurl"] : List String) =
                (node_filename c).append ".ffurl" :: [] from rfl,
                List.cons_prefix_cons] at hpre2
              exact fname_ne_ffurl c2 c hpre2.1
          case fs5 =>
            intro w hw
            rcases List.mem_append.1 hw with hw | hw
            · exact hfs w hw
            · simp only [List.mem_singleton] at hw
              rw [hw]
              exact hcneb
        · -- `c` itself is the first bad bookmark
          rw [if_pos (by intro hq; exact he hq)] at hfb
          cases hfb
          show (build_children (c :: rest) dir ow st).2 = _ ∧ _
          simp only [build_children, if_neg hc, if_pos hb, hiv]
          rw [if_neg (hseen iv (by
            rw [dfsIdsL_cons]
            exact List.mem_append.2 (Or.inl hivmem)))]
          rw [if_pos (by intro hq; exact he hq)]
          exact ⟨rfl, hfs⟩
      · exfalso
        have hw1 := hwt.1
        cases c with
        | mk tc ic tic uc dc lmc pc csc =>
          simp only [wellTyped, Bool.and_eq_true, Bool.or_eq_true,
            decide_eq_true_eq] at hw1
          simp only [is_container, is_bookmark, Node.ntype, decide_eq_true_eq] at hc hb
          rcases hw1.1 with h | h
          · exact hc h
          · exact hb h

theorem build_tree_bad : ∀ (n : Node) (dir : List String) (ow : Bool) (st : BState)
    (b : Node),
    wellTyped n = true → idsPresent n = true → is_container n = true →
    (dfsIds n).Nodup → (∀ j ∈ dfsIds n, j ∉ st.seen) →
    cleanFor st.fs dir → firstBad n = some b →
    (∀ w ∈ st.fs, w.2 ≠ b) →
    (build_tree n dir ow st).2 = some (.bookmarkWithChildren b.title) ∧
      ∀ w ∈ (build_tree n dir ow st).1.fs, w.2 ≠ b := by
  intro n
  induction n using nodeInd with
  | h t i ti u d lm p cs ihm =>
    intro dir ow st b hwt hip hcont hnd hseen hclean hfb hfs
    obtain ⟨iv, hiv⟩ := nid_isSome_of_idsPresent hip
    have hieq : i = some iv := hiv
    subst hieq
    simp only [wellTyped, Bool.and_eq_true] at hwt
    simp only [idsPresent, Bool.and_eq_true] at hip
    rw [dfsIds_cons] at hnd hseen
    obtain ⟨ib, hib, hibmem⟩ := firstBadL_id (show firstBadL cs = some b from hfb) hip.2
    show (build_tree (.mk t (some iv) ti u d lm p cs) dir ow st).2 = _ ∧ _
    simp only [build_tree]
    rw [if_neg (not_not_intro hcont)]
    rw [if_neg (hseen iv (List.mem_cons_self _ _))]
    have hex : pathExists st.fs (dir ++ [CONTAINER_FILE_NAME]) = false :=
      pathExists_false_of_clean hclean (List.prefix_append dir _)
    rw [if_neg (by
      rw [show (({ st with seen := st.seen ++ [iv] } : BState)).fs = st.fs from rfl, hex]
      simp)]
    apply build_children_bad cs ihm dir ow _ b hwt.2 hip.2
      (List.Nodup.of_cons hnd) ?seen6 ?clean6 hfb ?fs6
    case seen6 =>
      intro j hj
      simp only [List.mem_append, List.mem_singleton]
      push_neg
      refine ⟨hseen j (List.mem_cons_of_mem _ hj), ?_⟩
      intro hjv
      rw [hjv] at hj
      exact (List.nodup_cons.1 hnd).1 hj
    case clean6 =>
      intro c hc hcont2 w hw hpre
      rcases List.mem_append.1 hw with hw | hw
      · exact cleanFor_extend hclean [node_filename c] w hw hpre
      · simp only [List.mem_singleton] at hw
        rw [hw] at hpre
        have hpre2 := (List.prefix_append_right_inj dir).1 hpre
        rw [show ([CONTAINER_FILE_NAME] : List String) = CONTAINER_FILE_NAME :: [] from rfl,
          List.cons_prefix_cons] at hpre2
        exact fname_ne_info c hpre2.1
    case fs6 =>
      intro w hw
      rcases List.mem_append.1 hw with hw | hw
      · exact hfs w hw
      · simp only [List.mem_singleton] at hw
        rw [hw]
        intro hwb
        have : (clearNode (.mk t (some iv) ti u d lm p cs)).nid = b.nid :=
          congrArg Node.nid hwb
        rw [clearNode_nid, hib] at this
        rw [show (Node.mk t (some iv) ti u d lm p cs).nid = some iv from rfl] at this
        have hivib : iv = ib := by simpa using this
        rw [hivib] at hnd
        exact (List.nodup_cons.1 hnd).1 hibmem


/-- C4: exporting a tree containing a Bookmark with a non-empty child
list fails, when the walk reaches that bookmark, with the
`InvalidStructure` error 'a moz-place node should have no children'
(carrying that bookmark's title), and no file is ever written whose
record is that bookmark (its record file, which would embed its whole
subtree, is never created). -/
theorem claim_C4 (n b : Node) (dest : List String) (ow : Bool)
    (hwt : wellTyped n = true) (hip : idsPresent n = true)
    (hcont : is_container n = true) (hnd : (dfsIds n).Nodup)
    (hb : firstBad n = some b) :
    (bookmarks2dir n dest ow).2 = some (.bookmarkWithChildren b.title) ∧
      ∀ w ∈ (bookmarks2dir n dest ow).1.fs, w.2 ≠ b := by
  apply build_tree_bad n dest ow ⟨[], []⟩ b hwt hip hcont hnd
    (by intro j _ h; simp at h) (cleanFor_nil dest) hb
    (by intro w hw; simp at hw)

/-- A bookmark that illegally carries a child. -/
def badBm : Node :=
  .mk (some "text/x-moz-place") (some 3) "bad" (some "http://b") none none none
    [.mk (some "text/x-moz-place") (some 4) "inner" none none none none []]

def badTree : Node :=
  .mk (some "text/x-moz-place-container") (some 1) "root" none none none none
    [.mk (some "text/x-moz-place") (some 2) "good" (some "http://g") none none none [],
     badBm]

theorem claim_C4_witness :
    (wellTyped badTree = true ∧ idsPresent badTree = true ∧
      is_container badTree = true ∧ (dfsIds badTree).Nodup ∧
      firstBad badTree = some badBm) ∧
    ((bookmarks2dir badTree ["dest"] false).2 =
        some (.bookmarkWithChildren badBm.title) ∧
      ∀ w ∈ (bookmarks2dir badTree ["dest"] false).1.fs, w.2 ≠ badBm) :=
  ⟨⟨by decide, by decide, by decide, by decide, rfl⟩,
    claim_C4 badTree badBm ["dest"] false (by decide) (by decide) (by decide)
      (by decide) rfl⟩


/-! ## Lemmas about the mtime sort -/

/-- Sortedness of a directory listing by mtime. -/
def sortedM (l : List (String × FsNode)) : Prop :=
  l.Pairwise (fun a b => fsMtime a.2 ≤ fsMtime b.2)

theorem mem_insertByMtime {e x : String × FsNode} :
    ∀ {l : List (String × FsNode)}, x ∈ insertByMtime e l → x = e ∨ x ∈ l
  | [] => by
    intro h
    simp only [insertByMtime, List.mem_singleton] at h
    exact Or.inl h
  | y :: ys => by
    intro h
    simp only [insertByMtime] at h
    by_cases hk : fsMtime y.2 < fsMtime e.2
    · rw [if_pos hk] at h
      rcases List.mem_cons.1 h with h | h
      · exact Or.inr (by rw [h]; exact List.mem_cons_self _ _)
      · rcases mem_insertByMtime h with h | h
        · exact Or.inl h
        · exact Or.inr (List.mem_cons_of_mem _ h)
    · rw [if_neg hk] at h
      rcases List.mem_cons.1 h with h | h
      · exact Or.inl h
      · exact Or.inr h

theorem sortedM_insert {e : String × FsNode} :
    ∀ {l : List (String × FsNode)}, sortedM l → sortedM (insertByMtime e l)
  | [] => by
    intro _
    simp [insertByMtime, sortedM]
  | y :: ys => by
    intro hs
    rcases List.pairwise_cons.1 hs with ⟨hy, hys⟩
    simp only [insertByMtime]
    by_cases hk : fsMtime y.2 < fsMtime e.2
    · rw [if_pos hk]
      apply List.pairwise_cons.2
      refine ⟨?_, sortedM_insert hys⟩
      intro x hx
      rcases mem_insertByMtime hx with h | h
      · rw [h]
        omega
      · exact hy x h
    · rw [if_neg hk]
      apply List.pairwise_cons.2
      refine ⟨?_, hs⟩
      intro x hx
      rcases List.mem_cons.1 hx with h | h
      · rw [h]
        omega
      · have := hy x h
        omega

theorem sortedM_sortByMtime : ∀ (l : List (String × FsNode)), sortedM (sortByMtime l)
  | [] => by simp [sortByMtime, sortedM]
  | x :: xs => sortedM_insert (sortedM_sortByMtime xs)

theorem insertByMtime_eq_cons {e : String × FsNode} {l : List (String × FsNode)}
    (h : ∀ x ∈ l.head?, ¬ (fsMtime x.2 < fsMtime e.2)) :
    insertByMtime e l = e :: l := by
  cases l with
  | nil => rfl
  | cons y ys =>
    simp only [insertByMtime]
    rw [if_neg (h y rfl)]

theorem sortByMtime_eq_self : ∀ {l : List (String × FsNode)}, sortedM l →
    sortByMtime l = l
  | [] => fun _ => rfl
  | x :: xs => by
    intro hs
    rcases List.pairwise_cons.1 hs with ⟨hx, hxs⟩
    show insertByMtime x (sortByMtime xs) = x :: xs
    rw [sortByMtime_eq_self hxs]
    apply insertByMtime_eq_cons
    intro y hy
    cases xs with
    | nil => simp at hy
    | cons z zs =>
      simp only [List.head?_cons, Option.mem_def, Option.some_inj] at hy
      have := hx z (List.mem_cons_self _ _)
      rw [hy] at this
      omega

/-- A directory entry the importer's loop processes: a subdirectory or a
`.ffurl` file. -/
def keepEntry (e : String × FsNode) : Bool :=
  match e.2 with
  | .dir _ _ _ => true
  | .file _ _ => isFfurlName e.1

theorem filter_insertByMtime_pos {p : String × FsNode → Bool} {e : String × FsNode}
    (hp : p e = true) :
    ∀ {l : List (String × FsNode)}, sortedM l →
      (insertByMtime e l).filter p = insertByMtime e (l.filter p)
  | [] => by
    intro _
    simp [insertByMtime, List.filter, hp]
  | y :: ys => by
    intro hs
    rcases List.pairwise_cons.1 hs with ⟨hy, hys⟩
    simp only [insertByMtime]
    by_cases hk : fsMtime y.2 < fsMtime e.2
    · rw [if_pos hk]
      by_cases hpy : p y = true
      · rw [List.filter_cons_of_pos hpy, filter_insertByMtime_pos hp hys,
          List.filter_cons_of_pos hpy]
        simp only [insertByMtime]
        rw [if_pos hk]
      · rw [List.filter_cons_of_neg (by simp [hpy]), filter_insertByMtime_pos hp hys,
          List.filter_cons_of_neg (by simp [hpy])]
    · rw [if_neg hk]
      rw [List.filter_cons_of_pos hp]
      by_cases hpy : p y = true
      · rw [List.filter_cons_of_pos hpy]
        rw [insertByMtime_eq_cons (by
          intro x hx
          simp only [List.head?_cons, Option.mem_def, Option.some_inj] at hx
          rw [← hx]
          exact hk)]
      · rw [List.filter_cons_of_neg (by simp [hpy])]
        rw [insertByMtime_eq_cons ?h]
        case h =>
          intro x hx
          rcases hfy : ys.filter p with _ | ⟨z, zs⟩
          · rw [hfy] at hx
            simp at hx
          · rw [hfy] at hx
            simp only [List.head?_cons, Option.mem_def, Option.some_inj] at hx
            have hzmem : z ∈ ys.filter p := by rw [hfy]; exact List.mem_cons_self _ _
            have hzys : z ∈ ys := List.mem_of_mem_filter hzmem
            have := hy z hzys
            rw [← hx]
            omega

theorem filter_insertByMtime_neg {p : String × FsNode → Bool} {e : String × FsNode}
    (hp : p e = false) :
    ∀ (l : List (String × FsNode)),
      (insertByMtime e l).filter p = l.filter p
  | [] => by simp [insertByMtime, List.filter, hp]
  | y :: ys => by
    simp only [insertByMtime]
    by_cases hk : fsMtime y.2 < fsMtime e.2
    · rw [if_pos hk]
      by_cases hpy : p y = true
      · rw [List.filter_cons_of_pos hpy, filter_insertByMtime_neg hp ys,
          List.filter_cons_of_pos hpy]
      · rw [List.filter_cons_of_neg (by simp [hpy]), filter_insertByMtime_neg hp ys,
          List.filter_cons_of_neg (by simp [hpy])]
    · rw [if_neg hk]
      rw [List.filter_cons_of_neg (by simp [hp])]

theorem sortByMtime_filter (p : String × FsNode → Bool) :
    ∀ (l : List (String × FsNode)),
      sortByMtime (l.filter p) = (sortByMtime l).filter p
  | [] => rfl
  | x :: xs => by
    by_cases hpx : p x = true
    · rw [List.filter_cons_of_pos hpx]
      show insertByMtime x (sortByMtime (xs.filter p)) = _
      rw [sortByMtime_filter p xs]
      show _ = (insertByMtime x (sortByMtime xs)).filter p
      rw [filter_insertByMtime_pos hpx (sortedM_sortByMtime xs)]
    · rw [List.filter_cons_of_neg (by simp [hpx])]
      show sortByMtime (xs.filter p) = (insertByMtime x (sortByMtime xs)).filter p
      rw [filter_insertByMtime_neg (by simp [hpx]), sortByMtime_filter p xs]


/-! ## The importer's synthesized container record (claim C7) -/

theorem mtime2prtime (t : Int) : datetime2prtime (fromtimestamp t) = t * 1000000 := by
  show t / 86400 * 24 * 60 * 60 * 1000000 + t % 86400 * 1000000 + 0 = t * 1000000
  have h := Int.ediv_add_emod t 86400
  nlinarith [h]

theorem update_title_children (fn : String) (e : Node) :
    (update_title fn e).children = e.children := by
  unfold update_title
  by_cases h : partitionFst "__".data fn.data ≠ (slugify e.title 200).data
  · rw [if_pos h]
    cases e with
    | mk t i ti u d lm p cs => rfl
  · rw [if_neg h]

theorem update_title_fields (fn : String) (e : Node) :
    (update_title fn e).dateAdded = e.dateAdded ∧
      (update_title fn e).lastModified = e.lastModified ∧
      (update_title fn e).nid = e.nid ∧
      (update_title fn e).uri = e.uri ∧
      (update_title fn e).ntype = e.ntype ∧
      (update_title fn e).parent = e.parent := by
  unfold update_title
  by_cases h : partitionFst "__".data fn.data ≠ (slugify e.title 200).data
  · rw [if_pos h]
    cases e with
    | mk t i ti u d lm p cs => exact ⟨rfl, rfl, rfl, rfl, rfl, rfl⟩
  · rw [if_neg h]
    exact ⟨rfl, rfl, rfl, rfl, rfl, rfl⟩

theorem update_title_title (fn : String) (e : Node) :
    (update_title fn e).title =
      (if partitionFst "__".data fn.data ≠ (slugify e.title 200).data
       then (⟨replaceQuotes (partitionFst "__".data fn.data)⟩ : String)
       else e.title) := by
  unfold update_title
  by_cases h : partitionFst "__".data fn.data ≠ (slugify e.title 200).data
  · rw [if_pos h, if_pos h]
    cases e with
    | mk t i ti u d lm p cs => rfl
  · rw [if_neg h, if_neg h]

/-- C7 as stated is false: a directory whose basename contains `__` gets
its synthesized title rewritten by title recovery (`update_title`), so
the resulting title is not the basename. -/
theorem claim_C7_counterexample :
    read_container 1 "a__b" (.dir 5 7 []) =
      .ok (.mk (some "text/x-moz-place-container") none "a" none
        (some 5000000) (some 7000000) none []) ∧
    ("a" : String) ≠ "a__b" := ⟨rfl, by decide⟩

/-- C7 amended: importing a directory without the reserved info file
synthesizes a container record whose `dateAdded` is the directory's
mtime and whose `lastModified` is the directory's ctime, both converted
to microseconds, with no id; its title is the basename unless title
recovery rewrites it (when the basename's pre-`__` segment differs from
the basename's slug, the title becomes that segment with double quotes
replaced by apostrophes). -/
theorem claim_C7_amended (fuel : Nat) (nm : String) (m c : Int)
    (entries : List (String × FsNode)) (r : Node)
    (hno : entries.find? (fun e => e.1 = CONTAINER_FILE_NAME) = none)
    (hr : read_container fuel nm (.dir m c entries) = .ok r) :
    r.dateAdded = some (m * 1000000) ∧ r.lastModified = some (c * 1000000) ∧
      r.nid = none ∧
      r.title = (if partitionFst "__".data nm.data ≠ (slugify nm 200).data
                 then (⟨replaceQuotes (partitionFst "__".data nm.data)⟩ : String)
                 else nm) := by
  cases fuel with
  | zero => simp [read_container] at hr
  | succ f =>
    simp only [read_container, generate_container_dict] at hr
    rw [hno] at hr
    rcases hrc : read_children (read_container f) (sortByMtime entries) with e | kids
    · rw [hrc] at hr
      cases hr
    · rw [hrc] at hr
      simp only [Except.ok.injEq] at hr
      subst hr
      have hf := update_title_fields nm
        (.mk (some "text/x-moz-place-container") none nm none
          (some (datetime2prtime (fromtimestamp m)))
          (some (datetime2prtime (fromtimestamp c))) none kids)
      have ht := update_title_title nm
        (.mk (some "text/x-moz-place-container") none nm none
          (some (datetime2prtime (fromtimestamp m)))
          (some (datetime2prtime (fromtimestamp c))) none kids)
      refine ⟨?_, ?_, hf.2.2.1, ?_⟩
      · rw [hf.1]
        show some (datetime2prtime (fromtimestamp m)) = _
        rw [mtime2prtime]
      · rw [hf.2.1]
        show some (datetime2prtime (fromtimestamp c)) = _
        rw [mtime2prtime]
      · rw [ht]
        rfl

theorem claim_C7_amended_witness :
    (([] : List (String × FsNode)).find?
        (fun e => e.1 = CONTAINER_FILE_NAME) = none) ∧
    read_container 1 "photos" (.dir 5 7 []) =
      .ok (.mk (some "text/x-moz-place-container") none "photos" none
        (some 5000000) (some 7000000) none []) ∧
    ((.mk (some "text/x-moz-place-container") none "photos" none
        (some 5000000) (some 7000000) none [] : Node).dateAdded = some (5 * 1000000) ∧
      (.mk (some "text/x-moz-place-container") none "photos" none
        (some 5000000) (some 7000000) none [] : Node).lastModified = some (7 * 1000000) ∧
      (.mk (some "text/x-moz-place-container") none "photos" none
        (some 5000000) (some 7000000) none [] : Node).nid = none ∧
      (.mk (some "text/x-moz-place-container") none "photos" none
        (some 5000000) (some 7000000) none [] : Node).title =
        (if partitionFst "__".data "photos".data ≠ (slugify "photos" 200).data
         then (⟨replaceQuotes (partitionFst "__".data "photos".data)⟩ : String)
         else "photos")) :=
  ⟨rfl, rfl, claim_C7_amended 1 "photos" 5 7 [] _ rfl rfl⟩


/-! ## Stray directory entries are skipped by the importer (claim C10) -/

theorem read_children_filter (rc : String → FsNode → Except String Node) :
    ∀ (l : List (String × FsNode)),
      read_children rc (l.filter keepEntry) = read_children rc l
  | [] => rfl
  | (fn, fsn) :: rest => by
    cases fsn with
    | dir m c es =>
      rw [List.filter_cons_of_pos (by rfl)]
      show read_children rc ((fn, FsNode.dir m c es) :: rest.filter keepEntry) = _
      simp only [read_children]
      rw [read_children_filter rc rest]
    | file mt rec =>
      by_cases hf : isFfurlName fn = true
      · rw [List.filter_cons_of_pos (by simpa [keepEntry] using hf)]
        simp only [read_children, if_pos hf]
        rw [read_children_filter rc rest]
      · rw [List.filter_cons_of_neg (by simpa [keepEntry] using hf)]
        simp only [read_children, if_neg hf]
        exact read_children_filter rc rest

theorem find?_info_filter_none {entries : List (String × FsNode)}
    (h : entries.find? (fun e => e.1 = CONTAINER_FILE_NAME) = none) :
    (entries.filter keepEntry).find? (fun e => e.1 = CONTAINER_FILE_NAME) = none := by
  rw [List.find?_eq_none] at h ⊢
  intro x hx
  exact h x (List.mem_of_mem_filter hx)

theorem find?_info_filter_some : ∀ {entries : List (String × FsNode)}
    {a : String × FsNode},
    (entries.map Prod.fst).Nodup →
    entries.find? (fun e => e.1 = CONTAINER_FILE_NAME) = some a →
    (keepEntry a = true →
      (entries.filter keepEntry).find? (fun e => e.1 = CONTAINER_FILE_NAME) = some a) ∧
    (keepEntry a = false →
      (entries.filter keepEntry).find? (fun e => e.1 = CONTAINER_FILE_NAME) = none) := by
  intro entries
  induction entries with
  | nil =>
    intro a _ h
    simp at h
  | cons x rest ih =>
    intro a hnd h
    rw [List.map_cons, List.nodup_cons] at hnd
    by_cases hx : x.1 = CONTAINER_FILE_NAME
    · rw [List.find?_cons_of_pos _ (by simpa using hx)] at h
      have hax : a = x := by simpa using h.symm
      subst hax
      have hrest : ∀ y ∈ rest, ¬ (y.1 = CONTAINER_FILE_NAME) := by
        intro y hy hyn
        apply hnd.1
        rw [hx, ← hyn]
        exact List.mem_map_of_mem Prod.fst hy
      have hrestf : (rest.filter keepEntry).find?
          (fun e => e.1 = CONTAINER_FILE_NAME) = none := by
        rw [List.find?_eq_none]
        intro y hy
        simpa using hrest y (List.mem_of_mem_filter hy)
      constructor
      · intro hk
        rw [List.filter_cons_of_pos hk]
        rw [List.find?_cons_of_pos _ (by simpa using hx)]
      · intro hk
        rw [List.filter_cons_of_neg (by simp [hk])]
        exact hrestf
    · rw [List.find?_cons_of_neg _ (by simpa using hx)] at h
      have := ih hnd.2 h
      constructor
      · intro hk
        by_cases hkx : keepEntry x = true
        · rw [List.filter_cons_of_pos hkx,
            List.find?_cons_of_neg _ (by simpa using hx)]
          exact this.1 hk
        · rw [List.filter_cons_of_neg (by simp [hkx] at hkx ⊢)]
          exact this.1 hk
      · intro hk
        by_cases hkx : keepEntry x = true
        · rw [List.filter_cons_of_pos hkx,
            List.find?_cons_of_neg _ (by simpa using hx)]
          exact this.2 hk
        · rw [List.filter_cons_of_neg (by simp [hkx] at hkx ⊢)]
          exact this.2 hk

theorem withKids_children (base : Node) (kids : List Node) :
    (match base with
     | Node.mk t i ti u d lm p _ => Node.mk t i ti u d lm p kids).children = kids := by
  cases base with
  | mk t i ti u d lm p cs => rfl

/-- C10: a directory entry that is neither a subdirectory nor a file
whose name ends in `.ffurl` (the reserved info file included) is
silently skipped on import: deleting all such stray entries beforehand
changes neither the reconstructed children nor whether an error is
raised (the entry contributes no child and raises no error). -/
theorem claim_C10 (fuel : Nat) (nm : String) (m c : Int)
    (entries : List (String × FsNode))
    (hnodup : (entries.map Prod.fst).Nodup) :
    (∀ r, read_container fuel nm (.dir m c entries) = .ok r →
       ∃ r', read_container fuel nm (.dir m c (entries.filter keepEntry)) = .ok r' ∧
         r'.children = r.children) ∧
    (∀ e, read_container fuel nm (.dir m c entries) = .error e →
       ∃ e', read_container fuel nm (.dir m c (entries.filter keepEntry)) = .error e') := by
  cases fuel with
  | zero =>
    constructor
    · intro r hr
      simp [read_container] at hr
    · intro e _
      exact ⟨"out of fuel", rfl⟩
  | succ f =>
    have hch : read_children (read_container f) (sortByMtime (entries.filter keepEntry)) =
        read_children (read_container f) (sortByMtime entries) := by
      rw [sortByMtime_filter, read_children_filter]
    rcases hfind : entries.find? (fun e => e.1 = CONTAINER_FILE_NAME) with _ | a
    · have hfind2 := find?_info_filter_none hfind
      constructor
      · intro r hr
        refine ⟨r, ?_, rfl⟩
        simp only [read_container] at hr ⊢
        rw [hfind] at hr
        rw [hfind2, hch]
        exact hr
      · intro e hr
        refine ⟨e, ?_⟩
        simp only [read_container] at hr ⊢
        rw [hfind] at hr
        rw [hfind2, hch]
        exact hr
    · rcases a with ⟨nm0, fsn0⟩
      cases fsn0 with
      | dir m0 c0 es0 =>
        have hfind2 := (find?_info_filter_some hnodup hfind).1 (by rfl)
        constructor
        · intro r hr
          simp only [read_container] at hr
          rw [hfind] at hr
          cases hr
        · intro e hr
          refine ⟨"IOError", ?_⟩
          simp only [read_container]
          rw [hfind2]
      | file mt rec =>
        have hkf : keepEntry (nm0, FsNode.file mt rec) = false := by
          have hnm0 : nm0 = CONTAINER_FILE_NAME := by
            have := List.find?_some hfind
            simpa using this
          rw [hnm0]
          show isFfurlName CONTAINER_FILE_NAME = false
          decide
        have hfind2 := (find?_info_filter_some hnodup hfind).2 hkf
        constructor
        · intro r hr
          simp only [read_container, generate_container_dict] at hr ⊢
          rw [hfind] at hr
          rw [hfind2, hch]
          rcases hrc : read_children (read_container f) (sortByMtime entries)
            with e | kids
          · rw [hrc] at hr
            cases hr
          · rw [hrc] at hr
            simp only [Except.ok.injEq] at hr
            refine ⟨_, rfl, ?_⟩
            rw [← hr]
            rw [update_title_children, update_title_children]
            cases rec with
            | mk t2 i2 ti2 u2 d2 lm2 p2 cs2 => rfl
        · intro e hr
          simp only [read_container] at hr ⊢
          rw [hfind] at hr
          rw [hfind2, hch]
          rcases hrc : read_children (read_container f) (sortByMtime entries)
            with e0 | kids
          · rw [hrc] at hr
            refine ⟨e0, rfl⟩
          · rw [hrc] at hr
            cases hr


/-- A directory with a stray plain file next to a bookmark file. -/
def strayEntries : List (String × FsNode) :=
  [("stray.txt", .file 0 (.mk none none "junk" none none none none [])),
   ("x__ffid=1.ffurl", .file 1
     (.mk (some "text/x-moz-place") (some 1) "x" (some "http://x") none none none []))]

theorem claim_C10_witness :
    (strayEntries.map Prod.fst).Nodup ∧
    (∃ r', read_container 1 "d" (.dir 0 0 (strayEntries.filter keepEntry)) = .ok r' ∧
      r'.children = (Node.mk (some "text/x-moz-place-container") none "d" none
        (some 0) (some 0) none
        [.mk (some "text/x-moz-place") (some 1) "x" (some "http://x") none none none
          []]).children) :=
  ⟨by decide, (claim_C10 1 "d" 0 0 strayEntries (by decide)).1 _ rfl⟩


/-! ## The concrete two-node scenario (claim C6) -/

def c6Bm : Node :=
  .mk (some "text/x-moz-place") (some 2) "Example" (some "http://example.com")
    none none none []

def c6Tree : Node :=
  .mk (some "text/x-moz-place-container") (some 1) "Bookmarks" none none none none [c6Bm]

/-- C6 as stated is false: the container's record file is named
`__info__.ffcontainer` (the value of `CONTAINER_FILE_NAME`), not
`__info__`; exporting the scenario tree writes no entry `dest/__info__`. -/
theorem claim_C6_counterexample :
    (bookmarks2dir c6Tree ["dest"] false).1.fs.map Prod.fst =
      [["dest", "__info__.ffcontainer"], ["dest", "example__ffid=2.ffurl"]] ∧
    ["dest", "__info__"] ∉ (bookmarks2dir c6Tree ["dest"] false).1.fs.map Prod.fst :=
  ⟨by decide, by decide⟩

/-- C6 amended: exporting the scenario tree into an empty `dest`
succeeds and produces exactly two entries —
`dest/__info__.ffcontainer` (the container's record with children
cleared) and `dest/example__ffid=2.ffurl` (the bookmark's record with
its `uri` intact) — and importing the materialized directory back yields
a container with fresh id `2` (and one bookmark child with fresh id `3`,
uri `http://example.com`, title `Example`). -/
theorem claim_C6_amended :
    (bookmarks2dir c6Tree ["dest"] false).2 = none ∧
    (bookmarks2dir c6Tree ["dest"] false).1.fs =
      [(["dest", CONTAINER_FILE_NAME], clearNode c6Tree),
       (["dest", "example__ffid=2.ffurl"], c6Bm)] ∧
    materialize (bookmarks2dir c6Tree ["dest"] false).1.fs =
      [("dest", .dir 0 0
        [(CONTAINER_FILE_NAME, .file 0 (clearNode c6Tree)),
         ("example__ffid=2.ffurl", .file 1 c6Bm)])] ∧
    dir2bookmarks "dest" (.dir 0 0
        [(CONTAINER_FILE_NAME, .file 0 (clearNode c6Tree)),
         ("example__ffid=2.ffurl", .file 1 c6Bm)]) =
      .ok (.mk (some "text/x-moz-place-container") (some 2) "dest" none none none none
        [.mk (some "text/x-moz-place") (some 3) "Example" (some "http://example.com")
          none none (some 2) []]) :=
  ⟨rfl, rfl, rfl, rfl⟩


/-! ## Towards the round trip (claim C1): shape preservation helpers -/

theorem shapeOf_title_irrel (t : Option String) (i : Option Int) (ti1 ti2 : String)
    (u : Option String) (d lm p : Option Int) (cs : List Node) :
    shapeOf (.mk t i ti1 u d lm p cs) = shapeOf (.mk t i ti2 u d lm p cs) := by
  simp only [shapeOf]

theorem shapeOf_update_title (fn : String) (e : Node) :
    shapeOf (update_title fn e) = shapeOf e := by
  unfold update_title
  by_cases h : partitionFst "__".data fn.data ≠ (slugify e.title 200).data
  · rw [if_pos h]
    cases e with
    | mk t i ti u d lm p cs => exact shapeOf_title_irrel t i _ ti u d lm p cs
  · rw [if_neg h]

theorem shapeOf_assignIds : ∀ (n : Node) (pid : Option Int) (c : Int),
    shapeOf (assignIds n pid c).1 = shapeOf n := by
  intro n
  induction n using nodeInd with
  | h t i ti u d lm p cs ihm =>
    intro pid c
    show shapeOf (assignIds (.mk t i ti u d lm p cs) pid c).1 = _
    simp only [assignIds, shapeOf]
    have hl : ∀ (l : List Node), (∀ x ∈ l, ∀ pid c, shapeOf (assignIds x pid c).1 = shapeOf x) →
        ∀ pid c, shapeOfL (assignIdsL l pid c).1 = shapeOfL l := by
      intro l
      induction l with
      | nil => intro _ _ _; rfl
      | cons x xs ih =>
        intro hm pid c
        show shapeOfL (assignIdsL (x :: xs) pid c).1 = _
        simp only [assignIdsL, shapeOfL]
        rw [hm x (List.mem_cons_self _ _) pid c,
          ih (fun y hy => hm y (List.mem_cons_of_mem _ hy)) pid _]
    rw [hl cs ihm (some c) (c + 1)]

theorem shapeOf_uniquify (n : Node) : shapeOf (uniquify_ids n) = shapeOf n :=
  shapeOf_assignIds n none 2

/-! ## The directory tree the exporter leaves behind -/

mutual
/-- Number of file writes the exporter performs for a subtree. -/
def wcount : Node → Nat
  | .mk _ _ _ _ _ _ _ cs => 1 + wcountL cs

def wcountL : List Node → Nat
  | [] => 0
  | c :: rest =>
    (if is_container c then wcount c else if is_bookmark c then 1 else 0) + wcountL rest
end

/-- Push the stamped writes one directory level down segment `s`. -/
def prependSeg (s : String) : List (Int × List String × Node) → List (Int × List String × Node)
  | [] => []
  | w :: ws => (w.1, s :: w.2.1, w.2.2) :: prependSeg s ws

/-- Re-root relative stamped writes below the directory `dir`. -/
def reroot (dir : List String) : List (Int × List String × Node) → List (Int × List String × Node)
  | [] => []
  | w :: ws => (w.1, dir ++ w.2.1, w.2.2) :: reroot dir ws

mutual
/-- The stamped writes of a subtree: creation instants (starting at
`t0`) together with paths relative to the subtree's own directory. -/
def SW (n : Node) (t0 : Int) : List (Int × List String × Node) :=
  match n with
  | .mk t i ti u d lm p cs =>
    (t0, [CONTAINER_FILE_NAME], clearNode (.mk t i ti u d lm p cs)) :: SWL cs (t0 + 1)

def SWL : List Node → Int → List (Int × List String × Node)
  | [], _ => []
  | c :: rest, t =>
    if is_container c then
      prependSeg (node_filename c) (SW c t) ++ SWL rest (t + wcount c)
    else if is_bookmark c then
      (t, [(node_filename c).append ".ffurl"], c) :: SWL rest (t + 1)
    else SWL rest t
end

mutual
/-- Container nesting depth of a subtree: how many directory levels the
exporter creates for it. -/
def cdepth : Node → Nat
  | .mk _ _ _ _ _ _ _ cs => 1 + cdepthL cs

def cdepthL : List Node → Nat
  | [] => 0
  | c :: rest => max (if is_container c then cdepth c else 0) (cdepthL rest)
end

/-- Longest path among stamped writes. -/
def maxTLen (ws : List (Int × List String × Node)) : Nat :=
  ws.foldr (fun w acc => max w.2.1.length acc) 0

mutual
/-- The directory tree the exporter's writes materialize to, with
creation instants as mtimes (`t0` is the instant the subtree's own
directory is created, which is also the instant its info file is
written). -/
def exportFs (n : Node) (t0 : Int) : FsNode :=
  match n with
  | .mk t i ti u d lm p cs =>
    .dir t0 t0 ((CONTAINER_FILE_NAME, .file t0 (clearNode (.mk t i ti u d lm p cs))) ::
      exportEntries cs (t0 + 1))

def exportEntries : List Node → Int → List (String × FsNode)
  | [], _ => []
  | c :: rest, t =>
    if is_container c then
      (node_filename c, exportFs c t) :: exportEntries rest (t + wcount c)
    else if is_bookmark c then
      ((node_filename c).append ".ffurl", .file t c) :: exportEntries rest (t + 1)
    else exportEntries rest t
end

/-- The filenames the children of a container occupy, in order. -/
def fnames : List Node → List String
  | [] => []
  | c :: rest =>
    (if is_container c then [node_filename c]
     else if is_bookmark c then [(node_filename c).append ".ffurl"] else []) ++ fnames rest


/-! ## Write lists versus stamped relative writes -/

theorem wcount_pos (c : Node) : 1 ≤ wcount c := by
  cases c with
  | mk t i ti u d lm p cs =>
    show 1 ≤ 1 + wcountL cs
    omega

theorem W_length : ∀ (n : Node) (dir : List String), (W n dir).length = wcount n := by
  intro n
  induction n using nodeInd with
  | h t i ti u d lm p cs ihm =>
    intro dir
    have hl : ∀ (l : List Node), (∀ c ∈ l, ∀ dir, (W c dir).length = wcount c) →
        ∀ dir, (WL l dir).length = wcountL l := by
      intro l
      induction l with
      | nil => intro _ _; rfl
      | cons c rest ih =>
        intro hm dir
        show (WL (c :: rest) dir).length = wcountL (c :: rest)
        simp only [WL, wcountL]
        by_cases hc : is_container c
        · rw [if_pos hc, if_pos hc, List.length_append,
            hm c (List.mem_cons_self _ _), ih (fun x hx => hm x (List.mem_cons_of_mem _ hx)) dir]
        · rw [if_neg hc, if_neg hc]
          by_cases hb : is_bookmark c
          · rw [if_pos hb, if_pos hb, List.length_append,
              ih (fun x hx => hm x (List.mem_cons_of_mem _ hx)) dir]
            rfl
          · rw [if_neg hb, if_neg hb, List.length_append,
              ih (fun x hx => hm x (List.mem_cons_of_mem _ hx)) dir]
            rfl
    show (W (.mk t i ti u d lm p cs) dir).length = wcount (.mk t i ti u d lm p cs)
    simp only [W, wcount, List.length_cons]
    rw [hl cs ihm dir]
    omega

theorem stampWrites_append : ∀ (a b : List (List String × Node)) (t : Int),
    stampWrites (a ++ b) t = stampWrites a t ++ stampWrites b (t + a.length) := by
  intro a
  induction a with
  | nil =>
    intro b t
    simp [stampWrites]
  | cons w rest ih =>
    intro b t
    rw [List.cons_append]
    show (t, w.1, w.2) :: stampWrites (rest ++ b) (t + 1) = _
    rw [ih b (t + 1)]
    show _ = ((t, w.1, w.2) :: stampWrites rest (t + 1)) ++ _
    rw [List.cons_append]
    congr 2
    congr 1
    simp only [List.length_cons]
    push_cast
    ring

theorem reroot_append (dir : List String) :
    ∀ (a b : List (Int × List String × Node)),
    reroot dir (a ++ b) = reroot dir a ++ reroot dir b := by
  intro a
  induction a with
  | nil => intro b; rfl
  | cons w ws ih =>
    intro b
    simp only [List.cons_append, reroot, List.append_eq, ih]

theorem reroot_prependSeg (dir : List String) (s : String) :
    ∀ (l : List (Int × List String × Node)),
    reroot dir (prependSeg s l) = reroot (dir ++ [s]) l := by
  intro l
  induction l with
  | nil => rfl
  | cons w ws ih =>
    show (w.1, dir ++ s :: w.2.1, w.2.2) :: reroot dir (prependSeg s ws) = _
    rw [ih]
    show _ = (w.1, dir ++ [s] ++ w.2.1, w.2.2) :: reroot (dir ++ [s]) ws
    rw [List.append_cons]

theorem reroot_single (s : String) :
    ∀ (l : List (Int × List String × Node)), reroot [s] l = prependSeg s l := by
  intro l
  induction l with
  | nil => rfl
  | cons w ws ih =>
    simp only [reroot, prependSeg, ih, List.singleton_append]

theorem stampWrites_W : ∀ (n : Node) (dir : List String) (t0 : Int),
    stampWrites (W n dir) t0 = reroot dir (SW n t0) := by
  intro n
  induction n using nodeInd with
  | h t i ti u d lm p cs ihm =>
    intro dir t0
    have hl : ∀ (l : List Node),
        (∀ c ∈ l, ∀ dir t0, stampWrites (W c dir) t0 = reroot dir (SW c t0)) →
        ∀ dir t0, stampWrites (WL l dir) t0 = reroot dir (SWL l t0) := by
      intro l
      induction l with
      | nil => intro _ _ _; rfl
      | cons c rest ih =>
        intro hm dir t0
        show stampWrites (WL (c :: rest) dir) t0 = reroot dir (SWL (c :: rest) t0)
        simp only [WL, SWL]
        by_cases hc : is_container c
        · rw [if_pos hc, if_pos hc, stampWrites_append, reroot_append, W_length,
            hm c (List.mem_cons_self _ _) _ t0, reroot_prependSeg,
            ih (fun x hx => hm x (List.mem_cons_of_mem _ hx)) dir _]
        · rw [if_neg hc, if_neg hc]
          by_cases hb : is_bookmark c
          · rw [if_pos hb, if_pos hb, List.singleton_append]
            show (t0, dir ++ [(node_filename c).append ".ffurl"], c) ::
                stampWrites (WL rest dir) (t0 + 1) = _
            rw [ih (fun x hx => hm x (List.mem_cons_of_mem _ hx)) dir (t0 + 1)]
            rfl
          · rw [if_neg hb, if_neg hb, List.nil_append]
            exact ih (fun x hx => hm x (List.mem_cons_of_mem _ hx)) dir t0
    show stampWrites (W (.mk t i ti u d lm p cs) dir) t0 =
      reroot dir (SW (.mk t i ti u d lm p cs) t0)
    simp only [W, SW, stampWrites, reroot]
    rw [hl cs ihm dir (t0 + 1)]

/-! ## Path-length bookkeeping -/

theorem maxTLen_cons (w : Int × List String × Node) (ws : List (Int × List String × Node)) :
    maxTLen (w :: ws) = max w.2.1.length (maxTLen ws) := rfl

theorem maxTLen_stampWrites : ∀ (ws : List (List String × Node)) (t : Int),
    maxTLen (stampWrites ws t) = maxPathLen ws := by
  intro ws
  induction ws with
  | nil => intro t; rfl
  | cons w rest ih =>
    intro t
    show maxTLen ((t, w.1, w.2) :: stampWrites rest (t + 1)) = maxPathLen (w :: rest)
    rw [maxTLen_cons, ih (t + 1)]
    rfl

theorem maxTLen_append : ∀ (a b : List (Int × List String × Node)),
    maxTLen (a ++ b) = max (maxTLen a) (maxTLen b) := by
  intro a
  induction a with
  | nil => intro b; simp [maxTLen]
  | cons w ws ih =>
    intro b
    rw [List.cons_append, maxTLen_cons, maxTLen_cons, ih b]
    omega

theorem mem_le_maxTLen : ∀ {ws : List (Int × List String × Node)}
    {w : Int × List String × Node}, w ∈ ws → w.2.1.length ≤ maxTLen ws := by
  intro ws
  induction ws with
  | nil =>
    intro w h
    simp at h
  | cons x xs ih =>
    intro w h
    rw [maxTLen_cons]
    rcases List.mem_cons.1 h with h | h
    · rw [h]
      omega
    · have := ih h
      omega

theorem maxTLen_prependSeg (s : String) :
    ∀ (l : List (Int × List String × Node)), l ≠ [] →
    maxTLen (prependSeg s l) = 1 + maxTLen l := by
  intro l
  induction l with
  | nil => intro h; exact absurd rfl h
  | cons w ws ih =>
    intro _
    cases ws with
    | nil =>
      show maxTLen [(w.1, s :: w.2.1, w.2.2)] = 1 + maxTLen [w]
      rw [maxTLen_cons, maxTLen_cons]
      simp only [List.length_cons]
      show max (w.2.1.length + 1) (maxTLen []) = 1 + max w.2.1.length (maxTLen [])
      show max (w.2.1.length + 1) 0 = 1 + max w.2.1.length 0
      omega
    | cons y ys =>
      show maxTLen ((w.1, s :: w.2.1, w.2.2) :: prependSeg s (y :: ys)) = _
      rw [maxTLen_cons, maxTLen_cons, ih (by simp)]
      simp only [List.length_cons]
      omega

/-! ## Shapes of the stamped writes -/

theorem SW_cons (t : Option String) (i : Option Int) (ti : String) (u : Option String)
    (d lm p : Option Int) (cs : List Node) (t0 : Int) :
    SW (.mk t i ti u d lm p cs) t0 =
      (t0, [CONTAINER_FILE_NAME], clearNode (.mk t i ti u d lm p cs)) :: SWL cs (t0 + 1) := rfl

theorem SW_ne_nil (n : Node) (t0 : Int) : SW n t0 ≠ [] := by
  cases n with
  | mk t i ti u d lm p cs =>
    rw [SW_cons]
    exact List.cons_ne_nil _ _

theorem mem_prependSeg {s : String} :
    ∀ {l : List (Int × List String × Node)} {w : Int × List String × Node},
    w ∈ prependSeg s l → ∃ tl, w.2.1 = s :: tl := by
  intro l
  induction l with
  | nil =>
    intro w h
    simp [prependSeg] at h
  | cons x xs ih =>
    intro w h
    simp only [prependSeg] at h
    rcases List.mem_cons.1 h with h | h
    · exact ⟨x.2.1, by rw [h]⟩
    · exact ih h

theorem SWL_heads : ∀ (cs : List Node) (t : Int) (w : Int × List String × Node),
    w ∈ SWL cs t → ∃ s ∈ fnames cs, ∃ tl, w.2.1 = s :: tl := by
  intro cs
  induction cs with
  | nil =>
    intro t w hw
    simp [SWL] at hw
  | cons c rest ih =>
    intro t w hw
    simp only [SWL] at hw
    by_cases hc : is_container c
    · rw [if_pos hc] at hw
      rcases List.mem_append.1 hw with hw | hw
      · refine ⟨node_filename c, ?_, mem_prependSeg hw⟩
        simp only [fnames]
        rw [if_pos hc]
        exact List.mem_append.2 (Or.inl (List.mem_singleton.2 rfl))
      · rcases ih _ _ hw with ⟨s, hs, tl, htl⟩
        refine ⟨s, ?_, tl, htl⟩
        simp only [fnames]
        exact List.mem_append.2 (Or.inr hs)
    · rw [if_neg hc] at hw
      by_cases hb : is_bookmark c
      · rw [if_pos hb] at hw
        rcases List.mem_cons.1 hw with hw | hw
        · refine ⟨(node_filename c).append ".ffurl", ?_, [], by rw [hw]⟩
          simp only [fnames]
          rw [if_neg hc, if_pos hb]
          exact List.mem_append.2 (Or.inl (List.mem_singleton.2 rfl))
        · rcases ih _ _ hw with ⟨s, hs, tl, htl⟩
          refine ⟨s, ?_, tl, htl⟩
          simp only [fnames]
          exact List.mem_append.2 (Or.inr hs)
      · rw [if_neg hb] at hw
        rcases ih _ _ hw with ⟨s, hs, tl, htl⟩
        refine ⟨s, ?_, tl, htl⟩
        simp only [fnames]
        exact List.mem_append.2 (Or.inr hs)

theorem SW_paths_ne_nil (n : Node) (t0 : Int) : ∀ w ∈ SW n t0, w.2.1 ≠ [] := by
  cases n with
  | mk t i ti u d lm p cs =>
    intro w hw
    rw [SW_cons] at hw
    rcases List.mem_cons.1 hw with h | h
    · rw [h]
      simp
    · rcases SWL_heads cs _ w h with ⟨s, _, tl, htl⟩
      rw [htl]
      simp

theorem fnames_mem : ∀ {cs : List Node} {s : String}, s ∈ fnames cs →
    ∃ c ∈ cs, (is_container c = true ∧ s = node_filename c) ∨
      (is_bookmark c = true ∧ s = (node_filename c).append ".ffurl") := by
  intro cs
  induction cs with
  | nil =>
    intro s h
    simp [fnames] at h
  | cons c rest ih =>
    intro s h
    simp only [fnames] at h
    by_cases hc : is_container c
    · rw [if_pos hc] at h
      rcases List.mem_append.1 h with h | h
      · exact ⟨c, List.mem_cons_self _ _, Or.inl ⟨hc, List.mem_singleton.1 h⟩⟩
      · rcases ih h with ⟨x, hm, hcase⟩
        exact ⟨x, List.mem_cons_of_mem _ hm, hcase⟩
    · rw [if_neg hc] at h
      by_cases hb : is_bookmark c
      · rw [if_pos hb] at h
        rcases List.mem_append.1 h with h | h
        · exact ⟨c, List.mem_cons_self _ _, Or.inr ⟨hb, List.mem_singleton.1 h⟩⟩
        · rcases ih h with ⟨x, hm, hcase⟩
          exact ⟨x, List.mem_cons_of_mem _ hm, hcase⟩
      · rw [if_neg hb, List.nil_append] at h
        rcases ih h with ⟨x, hm, hcase⟩
        exact ⟨x, List.mem_cons_of_mem _ hm, hcase⟩

theorem entryName_inj {c x : Node} {iv iv2 : Int} (hc : c.nid = some iv)
    (hx : x.nid = some iv2) (hne : iv ≠ iv2) {s : String}
    (hs : s = node_filename c ∨ s = (node_filename c).append ".ffurl")
    (hs2 : s = node_filename x ∨ s = (node_filename x).append ".ffurl") : False := by
  rcases hs with h1 | h1 <;> rcases hs2 with h2 | h2
  · exact hne (node_filename_inj hc hx (h1.symm.trans h2))
  · exact fname_ne_ffurl c x (h1.symm.trans h2)
  · exact fname_ne_ffurl x c (h2.symm.trans h1)
  · exact hne (ffurl_append_inj hc hx (by
      have hd := (h1.symm.trans h2)
      exact hd))

theorem name_not_mem_fnames {c : Node} {iv : Int} {rest : List Node} {s : String}
    (hc : c.nid = some iv) (hifr : idsPresentL rest = true)
    (hfresh : iv ∉ dfsIdsL rest)
    (hs : s = node_filename c ∨ s = (node_filename c).append ".ffurl") :
    s ∉ fnames rest := by
  intro hmem
  rcases fnames_mem hmem with ⟨x, hxm, hcase⟩
  obtain ⟨iv2, hiv2⟩ := nid_isSome_of_idsPresent (idsPresentL_mem hifr hxm)
  have hne : iv ≠ iv2 := fun he => hfresh (he ▸ mem_dfsIdsL_of_mem hxm hiv2)
  rcases hcase with ⟨_, h2⟩ | ⟨_, h2⟩
  · exact entryName_inj hc hiv2 hne hs (Or.inl h2)
  · exact entryName_inj hc hiv2 hne hs (Or.inr h2)

theorem info_not_mem_fnames : ∀ (cs : List Node), CONTAINER_FILE_NAME ∉ fnames cs := by
  intro cs hmem
  rcases fnames_mem hmem with ⟨x, _, hcase⟩
  rcases hcase with ⟨_, h2⟩ | ⟨_, h2⟩
  · exact fname_ne_info x h2.symm
  · exact ffurl_ne_info x h2.symm

/-! ## firstOccs, headSegs and selectSeg algebra -/

theorem filter_ne_idem (s : String) (l : List String) :
    (l.filter (fun x => x ≠ s)).filter (fun x => x ≠ s) = l.filter (fun x => x ≠ s) := by
  apply List.filter_eq_self.2
  intro x hx
  exact (List.mem_filter.1 hx).2

theorem filter_ne_of_not_mem {s : String} {l : List String} (h : s ∉ l) :
    l.filter (fun x => x ≠ s) = l := by
  apply List.filter_eq_self.2
  intro x hx
  simp only [ne_eq, decide_eq_true_eq]
  intro he
  exact h (he ▸ hx)

theorem firstOccs_cons (s : String) (l : List String) :
    firstOccs (s :: l) = s :: (firstOccs l).filter (fun x => x ≠ s) := rfl

theorem firstOccs_const_append (s : String) :
    ∀ (l : List String), l ≠ [] → ∀ (rest : List String), (∀ x ∈ l, x = s) →
    firstOccs (l ++ rest) = s :: (firstOccs rest).filter (fun x => x ≠ s) := by
  intro l
  induction l with
  | nil => intro h; exact absurd rfl h
  | cons a as ih =>
    intro _ rest hall
    have ha : a = s := hall a (List.mem_cons_self _ _)
    subst ha
    cases as with
    | nil => rw [List.singleton_append, firstOccs_cons]
    | cons b bs =>
      rw [List.cons_append, firstOccs_cons,
        ih (by simp) rest (fun x hx => hall x (List.mem_cons_of_mem _ hx))]
      congr 1
      rw [List.filter_cons, if_neg (by simp)]
      exact filter_ne_idem a _

theorem firstOccs_const (s : String) (l : List String) (hne : l ≠ [])
    (hall : ∀ x ∈ l, x = s) : firstOccs l = [s] := by
  have h := firstOccs_const_append s l hne [] hall
  rw [List.append_nil] at h
  rw [h]
  rfl

theorem headSegs_cons_path (tv : Int) (h : String) (tl : List String) (r : Node)
    (ws : List (Int × List String × Node)) :
    headSegs ((tv, h :: tl, r) :: ws) = h :: headSegs ws := by
  simp [headSegs]

theorem headSegs_append (a b : List (Int × List String × Node)) :
    headSegs (a ++ b) = headSegs a ++ headSegs b := by
  simp [headSegs, List.filterMap_append]

theorem headSegs_prependSeg (s : String) :
    ∀ (l : List (Int × List String × Node)),
    headSegs (prependSeg s l) = l.map (fun _ => s) := by
  intro l
  induction l with
  | nil => rfl
  | cons w ws ih =>
    show headSegs ((w.1, s :: w.2.1, w.2.2) :: prependSeg s ws) = _
    rw [headSegs_cons_path, ih, List.map_cons]

theorem selectSeg_cons_empty (s : String) (tv : Int) (r : Node)
    (ws : List (Int × List String × Node)) :
    selectSeg s ((tv, [], r) :: ws) = selectSeg s ws := by
  simp [selectSeg, List.filterMap_cons]

theorem selectSeg_cons_eq (s : String) (tv : Int) (tl : List String) (r : Node)
    (ws : List (Int × List String × Node)) :
    selectSeg s ((tv, s :: tl, r) :: ws) = (tv, tl, r) :: selectSeg s ws := by
  simp [selectSeg, List.filterMap_cons]

theorem selectSeg_cons_ne {s h : String} (hne : h ≠ s) (tv : Int) (tl : List String) (r : Node)
    (ws : List (Int × List String × Node)) :
    selectSeg s ((tv, h :: tl, r) :: ws) = selectSeg s ws := by
  simp [selectSeg, List.filterMap_cons, hne]

theorem selectSeg_append (s : String) (a b : List (Int × List String × Node)) :
    selectSeg s (a ++ b) = selectSeg s a ++ selectSeg s b := by
  simp [selectSeg, List.filterMap_append]

theorem selectSeg_prependSeg_self (s : String) :
    ∀ (l : List (Int × List String × Node)), selectSeg s (prependSeg s l) = l := by
  intro l
  induction l with
  | nil => rfl
  | cons w ws ih =>
    show selectSeg s ((w.1, s :: w.2.1, w.2.2) :: prependSeg s ws) = w :: ws
    rw [selectSeg_cons_eq, ih]

theorem selectSeg_prependSeg_ne {s s2 : String} (hne : s ≠ s2) :
    ∀ (l : List (Int × List String × Node)), selectSeg s2 (prependSeg s l) = [] := by
  intro l
  induction l with
  | nil => rfl
  | cons w ws ih =>
    show selectSeg s2 ((w.1, s :: w.2.1, w.2.2) :: prependSeg s ws) = []
    rw [selectSeg_cons_ne hne, ih]

theorem selectSeg_eq_nil_of_heads {s : String} :
    ∀ {l : List (Int × List String × Node)},
    (∀ w ∈ l, ∀ tl, w.2.1 ≠ s :: tl) → selectSeg s l = [] := by
  intro l
  induction l with
  | nil => intro _; rfl
  | cons w ws ih =>
    intro h
    obtain ⟨tv, path, r⟩ := w
    cases path with
    | nil =>
      rw [selectSeg_cons_empty]
      exact ih (fun x hx => h x (List.mem_cons_of_mem _ hx))
    | cons hd tl =>
      have hne : hd ≠ s := by
        intro he
        exact h (tv, hd :: tl, r) (List.mem_cons_self _ _) tl (by rw [he])
      rw [selectSeg_cons_ne hne]
      exact ih (fun x hx => h x (List.mem_cons_of_mem _ hx))

theorem find_isEmpty_none {l : List (Int × List String × Node)}
    (h : ∀ w ∈ l, w.2.1 ≠ []) :
    l.find? (fun w => w.2.1.isEmpty) = none := by
  apply List.find?_eq_none.2
  intro w hw
  simp only [List.isEmpty_iff]
  exact h w hw

/-! ## Container depth bounds the fuel the materializer needs -/

theorem cdepth_pos (n : Node) : 1 ≤ cdepth n := by
  cases n with
  | mk t i ti u d lm p cs =>
    show 1 ≤ 1 + cdepthL cs
    omega

theorem cdepthL_le_of_mem : ∀ {cs : List Node} {c : Node}, c ∈ cs →
    is_container c = true → cdepth c ≤ cdepthL cs := by
  intro cs
  induction cs with
  | nil =>
    intro c h
    simp at h
  | cons x rest ih =>
    intro c h hc
    show cdepth c ≤ max (if is_container x then cdepth x else 0) (cdepthL rest)
    rcases List.mem_cons.1 h with h | h
    · subst h
      rw [if_pos hc]
      omega
    · have := ih h hc
      omega

theorem maxTLen_SW_ge : ∀ (n : Node) (t0 : Int), cdepth n ≤ maxTLen (SW n t0) := by
  intro n
  induction n using nodeInd with
  | h t i ti u d lm p cs ihm =>
    intro t0
    have hl : ∀ (l : List Node), (∀ c ∈ l, ∀ t0, cdepth c ≤ maxTLen (SW c t0)) →
        ∀ tt, cdepthL l = 0 ∨ 1 + cdepthL l ≤ maxTLen (SWL l tt) := by
      intro l
      induction l with
      | nil =>
        intro _ tt
        exact Or.inl rfl
      | cons c rest ih =>
        intro hm tt
        show cdepthL (c :: rest) = 0 ∨ 1 + cdepthL (c :: rest) ≤ maxTLen (SWL (c :: rest) tt)
        show max (if is_container c then cdepth c else 0) (cdepthL rest) = 0 ∨
          1 + max (if is_container c then cdepth c else 0) (cdepthL rest) ≤
            maxTLen (SWL (c :: rest) tt)
        simp only [SWL]
        by_cases hc : is_container c
        · rw [if_pos hc, if_pos hc, maxTLen_append, maxTLen_prependSeg _ _ (SW_ne_nil c tt)]
          have h1 := hm c (List.mem_cons_self _ _) tt
          have h2 := ih (fun x hx => hm x (List.mem_cons_of_mem _ hx)) (tt + wcount c)
          have h3 := cdepth_pos c
          rcases h2 with h2 | h2 <;> [exact Or.inr (by omega); exact Or.inr (by omega)]
        · rw [if_neg hc, if_neg hc]
          by_cases hb : is_bookmark c
          · rw [if_pos hb, maxTLen_cons]
            have h2 := ih (fun x hx => hm x (List.mem_cons_of_mem _ hx)) (tt + 1)
            rcases h2 with h2 | h2
            · exact Or.inl (by omega)
            · exact Or.inr (by omega)
          · rw [if_neg hb]
            have h2 := ih (fun x hx => hm x (List.mem_cons_of_mem _ hx)) tt
            rcases h2 with h2 | h2
            · exact Or.inl (by omega)
            · exact Or.inr (by omega)
    show cdepth (.mk t i ti u d lm p cs) ≤ maxTLen (SW (.mk t i ti u d lm p cs) t0)
    rw [SW_cons, maxTLen_cons]
    have h := hl cs ihm (t0 + 1)
    show 1 + cdepthL cs ≤ max [CONTAINER_FILE_NAME].length _
    simp only [List.length_singleton]
    rcases h with h | h <;> omega

/-! ## Materializing the exporter's writes -/

theorem firstOccs_SWL : ∀ (cs : List Node) (t : Int),
    idsPresentL cs = true → (dfsIdsL cs).Nodup →
    firstOccs (headSegs (SWL cs t)) = fnames cs := by
  intro cs
  induction cs with
  | nil => intro t _ _; rfl
  | cons c rest ih =>
    intro t hip hnd
    simp only [idsPresentL, Bool.and_eq_true] at hip
    rw [dfsIdsL_cons] at hnd
    rcases List.nodup_append.1 hnd with ⟨hnd1, hnd2, hdisj⟩
    obtain ⟨iv, hiv⟩ := nid_isSome_of_idsPresent hip.1
    have hfresh : iv ∉ dfsIdsL rest := fun hmem => hdisj (dfsIds_self_mem hiv) hmem
    simp only [SWL, fnames]
    by_cases hc : is_container c
    · rw [if_pos hc, if_pos hc, headSegs_append, headSegs_prependSeg,
        firstOccs_const_append (node_filename c) _
          (fun hmap => SW_ne_nil c t (List.map_eq_nil_iff.1 hmap)) _
          (fun x hx => by rcases List.mem_map.1 hx with ⟨_, _, h⟩; exact h.symm),
        ih _ hip.2 hnd2,
        filter_ne_of_not_mem (name_not_mem_fnames hiv hip.2 hfresh (Or.inl rfl)),
        List.singleton_append]
    · rw [if_neg hc, if_neg hc]
      by_cases hb : is_bookmark c
      · rw [if_pos hb, if_pos hb, headSegs_cons_path, firstOccs_cons,
          ih _ hip.2 hnd2,
          filter_ne_of_not_mem (name_not_mem_fnames hiv hip.2 hfresh (Or.inr rfl)),
          List.singleton_append]
      · rw [if_neg hb, if_neg hb, List.nil_append]
        exact ih _ hip.2 hnd2

theorem matEntries_succ (f : Nat) (ws : List (Int × List String × Node)) :
    matEntries (f + 1) ws = matSegs (matEntries f) ws (firstOccs (headSegs ws)) := rfl

theorem matSegs_eq_cons (mat : List (Int × List String × Node) → List (String × FsNode))
    (ws : List (Int × List String × Node)) (s : String) (rest : List String) (nd : FsNode)
    (h : (match (selectSeg s ws).find? (fun w => w.2.1.isEmpty) with
      | some (t, _, rec) => FsNode.file t rec
      | none =>
        FsNode.dir (match (selectSeg s ws).head? with | some (t, _, _) => t | none => 0)
          (match (selectSeg s ws).head? with | some (t, _, _) => t | none => 0)
          (mat (selectSeg s ws))) = nd) :
    matSegs mat ws (s :: rest) = (s, nd) :: matSegs mat ws rest := by
  rw [← h]
  rfl

/-- The heart of the round trip: materializing the stamped writes of a
subtree rebuilds exactly the directory tree `exportFs`. -/
theorem matEntries_SW : ∀ (n : Node) (t0 : Int) (fuel : Nat),
    wellTyped n = true → idsPresent n = true → (dfsIds n).Nodup → cdepth n ≤ fuel →
    FsNode.dir t0 t0 (matEntries fuel (SW n t0)) = exportFs n t0 := by
  intro n
  induction n using nodeInd with
  | h t i ti u d lm p cs ihm =>
    intro t0 fuel hwt hip hnd hfuel
    have hl : ∀ (l : List Node),
        (∀ c ∈ l, ∀ (t0 : Int) (fuel : Nat), wellTyped c = true → idsPresent c = true →
          (dfsIds c).Nodup → cdepth c ≤ fuel →
          FsNode.dir t0 t0 (matEntries fuel (SW c t0)) = exportFs c t0) →
        ∀ (tt : Int) (fuel : Nat) (ws : List (Int × List String × Node)),
        wellTypedL l = true → idsPresentL l = true → (dfsIdsL l).Nodup → cdepthL l ≤ fuel →
        (∀ s ∈ fnames l, selectSeg s ws = selectSeg s (SWL l tt)) →
        matSegs (matEntries fuel) ws (fnames l) = exportEntries l tt := by
      intro l
      induction l with
      | nil => intro _ tt fuel ws _ _ _ _ _; rfl
      | cons c rest ih =>
        intro hm tt fuel ws hwtl hipl hndl hdep hsel
        simp only [wellTypedL, Bool.and_eq_true] at hwtl
        simp only [idsPresentL, Bool.and_eq_true] at hipl
        rw [dfsIdsL_cons] at hndl
        rcases List.nodup_append.1 hndl with ⟨hnd1, hnd2, hdisj⟩
        obtain ⟨iv, hiv⟩ := nid_isSome_of_idsPresent hipl.1
        have hfresh : iv ∉ dfsIdsL rest := fun hmem => hdisj (dfsIds_self_mem hiv) hmem
        have hdepr : cdepthL rest ≤ fuel := by
          simp only [cdepthL] at hdep
          omega
        by_cases hc : is_container c
        · have hnot : node_filename c ∉ fnames rest :=
            name_not_mem_fnames hiv hipl.2 hfresh (Or.inl rfl)
          have hmemfn : node_filename c ∈ fnames (c :: rest) := by
            simp only [fnames]
            rw [if_pos hc]
            exact List.mem_append.2 (Or.inl (List.mem_singleton.2 rfl))
          have hhrest : ∀ w ∈ SWL rest (tt + wcount c), ∀ tl,
              w.2.1 ≠ node_filename c :: tl := by
            intro w hw tl heq
            rcases SWL_heads rest _ w hw with ⟨s, hs, tl2, htl⟩
            have h1 : s = node_filename c := by injection htl.symm.trans heq
            exact hnot (h1 ▸ hs)
          have hgrp : selectSeg (node_filename c) ws = SW c tt := by
            rw [hsel (node_filename c) hmemfn]
            show selectSeg (node_filename c) (SWL (c :: rest) tt) = SW c tt
            simp only [SWL]
            rw [if_pos hc, selectSeg_append, selectSeg_prependSeg_self,
              selectSeg_eq_nil_of_heads hhrest, List.append_nil]
          have hseln : ∀ s ∈ fnames rest, selectSeg s ws = selectSeg s (SWL rest (tt + wcount c)) := by
            intro s hs
            have hne : node_filename c ≠ s := fun he => hnot (he ▸ hs)
            have hmem2 : s ∈ fnames (c :: rest) := by
              simp only [fnames]
              rw [if_pos hc]
              exact List.mem_append.2 (Or.inr hs)
            rw [hsel s hmem2]
            show selectSeg s (SWL (c :: rest) tt) = _
            simp only [SWL]
            rw [if_pos hc, selectSeg_append, selectSeg_prependSeg_ne hne, List.nil_append]
          have hdc : cdepth c ≤ fuel :=
            le_trans (cdepthL_le_of_mem (List.mem_cons_self _ _) hc) hdep
          show matSegs (matEntries fuel) ws (fnames (c :: rest)) = exportEntries (c :: rest) tt
          simp only [fnames, exportEntries]
          rw [if_pos hc, if_pos hc, List.singleton_append]
          have hnode : (match (selectSeg (node_filename c) ws).find? (fun w => w.2.1.isEmpty) with
              | some (tv, _, rec) => FsNode.file tv rec
              | none =>
                FsNode.dir (match (selectSeg (node_filename c) ws).head? with
                    | some (tv, _, _) => tv | none => 0)
                  (match (selectSeg (node_filename c) ws).head? with
                    | some (tv, _, _) => tv | none => 0)
                  (matEntries fuel (selectSeg (node_filename c) ws))) = exportFs c tt := by
            rw [hgrp, find_isEmpty_none (SW_paths_ne_nil c tt)]
            obtain ⟨tc, ic, tic, uc, dc, lmc, pc, csc⟩ := c
            show FsNode.dir tt tt (matEntries fuel (SW (.mk tc ic tic uc dc lmc pc csc) tt)) =
              exportFs (.mk tc ic tic uc dc lmc pc csc) tt
            exact hm _ (List.mem_cons_self _ _) tt fuel hwtl.1 hipl.1 hnd1 hdc
          rw [matSegs_eq_cons _ _ _ _ (exportFs c tt) hnode,
            ih (fun x hx => hm x (List.mem_cons_of_mem _ hx)) (tt + wcount c) fuel ws
              hwtl.2 hipl.2 hnd2 hdepr hseln]
        · by_cases hb : is_bookmark c
          · have hnot : (node_filename c).append ".ffurl" ∉ fnames rest :=
              name_not_mem_fnames hiv hipl.2 hfresh (Or.inr rfl)
            have hmemfn : (node_filename c).append ".ffurl" ∈ fnames (c :: rest) := by
              simp only [fnames]
              rw [if_neg hc, if_pos hb]
              exact List.mem_append.2 (Or.inl (List.mem_singleton.2 rfl))
            have hhrest : ∀ w ∈ SWL rest (tt + 1), ∀ tl,
                w.2.1 ≠ (node_filename c).append ".ffurl" :: tl := by
              intro w hw tl heq
              rcases SWL_heads rest _ w hw with ⟨s, hs, tl2, htl⟩
              have h1 : s = (node_filename c).append ".ffurl" := by
                have h2 := htl.symm.trans heq
                injection h2 with h3 h4
              exact hnot (h1 ▸ hs)
            have hgrp : selectSeg ((node_filename c).append ".ffurl") ws = [(tt, ([] : List String), c)] := by
              rw [hsel _ hmemfn]
              show selectSeg ((node_filename c).append ".ffurl") (SWL (c :: rest) tt) = _
              simp only [SWL]
              rw [if_neg hc, if_pos hb, selectSeg_cons_eq, selectSeg_eq_nil_of_heads hhrest]
            have hseln : ∀ s ∈ fnames rest,
                selectSeg s ws = selectSeg s (SWL rest (tt + 1)) := by
              intro s hs
              have hne : (node_filename c).append ".ffurl" ≠ s := fun he => hnot (he ▸ hs)
              have hmem2 : s ∈ fnames (c :: rest) := by
                simp only [fnames]
                rw [if_neg hc, if_pos hb]
                exact List.mem_append.2 (Or.inr hs)
              rw [hsel s hmem2]
              show selectSeg s (SWL (c :: rest) tt) = _
              simp only [SWL]
              rw [if_neg hc, if_pos hb, selectSeg_cons_ne hne]
            show matSegs (matEntries fuel) ws (fnames (c :: rest)) = exportEntries (c :: rest) tt
            simp only [fnames, exportEntries]
            rw [if_neg hc, if_neg hc, if_pos hb, if_pos hb, List.singleton_append]
            have hnode : (match (selectSeg ((node_filename c).append ".ffurl") ws).find?
                (fun w => w.2.1.isEmpty) with
                | some (tv, _, rec) => FsNode.file tv rec
                | none =>
                  FsNode.dir (match (selectSeg ((node_filename c).append ".ffurl") ws).head? with
                      | some (tv, _, _) => tv | none => 0)
                    (match (selectSeg ((node_filename c).append ".ffurl") ws).head? with
                      | some (tv, _, _) => tv | none => 0)
                    (matEntries fuel (selectSeg ((node_filename c).append ".ffurl") ws))) =
                FsNode.file tt c := by
              rw [hgrp]
              rfl
            rw [matSegs_eq_cons _ _ _ _ (FsNode.file tt c) hnode,
              ih (fun x hx => hm x (List.mem_cons_of_mem _ hx)) (tt + 1) fuel ws
                hwtl.2 hipl.2 hnd2 hdepr hseln]
          · exfalso
            obtain ⟨tc, ic, tic, uc, dc, lmc, pc, csc⟩ := c
            have hwc := hwtl.1
            simp only [wellTyped, Bool.and_eq_true, Bool.or_eq_true, decide_eq_true_eq] at hwc
            simp only [is_container, is_bookmark, Node.ntype, decide_eq_true_eq] at hc hb
            rcases hwc.1 with h | h
            · exact hc h
            · exact hb h
    have hwtl : wellTypedL cs = true := by
      simp only [wellTyped, Bool.and_eq_true] at hwt
      exact hwt.2
    have hipl : idsPresentL cs = true := by
      simp only [idsPresent, Bool.and_eq_true] at hip
      exact hip.2
    have hndl : (dfsIdsL cs).Nodup := by
      have he : dfsIds (.mk t i ti u d lm p cs) = i.toList ++ dfsIdsL cs := rfl
      rw [he] at hnd
      exact (List.nodup_append.1 hnd).2.1
    cases fuel with
    | zero =>
      exfalso
      have h1 := cdepth_pos (.mk t i ti u d lm p cs)
      omega
    | succ f =>
      have hdepl : cdepthL cs ≤ f := by
        have he : cdepth (.mk t i ti u d lm p cs) = 1 + cdepthL cs := rfl
        rw [he] at hfuel
        omega
      show FsNode.dir t0 t0 (matEntries (f + 1) (SW (.mk t i ti u d lm p cs) t0)) =
        exportFs (.mk t i ti u d lm p cs) t0
      rw [matEntries_succ, SW_cons, headSegs_cons_path, firstOccs_cons,
        firstOccs_SWL cs _ hipl hndl, filter_ne_of_not_mem (info_not_mem_fnames cs)]
      have hheads : ∀ w ∈ SWL cs (t0 + 1), ∀ tl, w.2.1 ≠ CONTAINER_FILE_NAME :: tl := by
        intro w hw tl heq
        rcases SWL_heads cs _ w hw with ⟨s, hs, tl2, htl⟩
        have h1 : s = CONTAINER_FILE_NAME := by
          have h2 := htl.symm.trans heq
          injection h2 with h3 h4
        exact info_not_mem_fnames cs (h1 ▸ hs)
      have hgrp : selectSeg CONTAINER_FILE_NAME
          ((t0, [CONTAINER_FILE_NAME], clearNode (.mk t i ti u d lm p cs)) :: SWL cs (t0 + 1)) =
          [(t0, ([] : List String), clearNode (.mk t i ti u d lm p cs))] := by
        rw [selectSeg_cons_eq, selectSeg_eq_nil_of_heads hheads]
      have hselw : ∀ s ∈ fnames cs, selectSeg s
          ((t0, [CONTAINER_FILE_NAME], clearNode (.mk t i ti u d lm p cs)) :: SWL cs (t0 + 1)) =
          selectSeg s (SWL cs (t0 + 1)) := by
        intro s hs
        exact selectSeg_cons_ne (fun he => info_not_mem_fnames cs (by rw [he]; exact hs)) _ _ _ _
      rw [matSegs_eq_cons _ _ _ _ (FsNode.file t0 (clearNode (.mk t i ti u d lm p cs)))
          (by rw [hgrp]; rfl),
        hl cs ihm (t0 + 1) f _ hwtl hipl hndl hdepl hselw]
      rfl

/-- Exporting a well-formed tree into the fresh destination `dest` and
materializing the writes leaves exactly one entry: the directory tree
`exportFs n 0`. -/
theorem materialize_W (n : Node) (hwt : wellTyped n = true) (hip : idsPresent n = true)
    (hnd : (dfsIds n).Nodup) :
    materialize (W n ["dest"]) = [("dest", exportFs n 0)] := by
  unfold materialize
  rw [stampWrites_W n ["dest"] 0, reroot_single]
  have hfuel : maxPathLen (W n ["dest"]) = maxTLen (SW n 0) + 1 := by
    rw [← maxTLen_stampWrites (W n ["dest"]) 0, stampWrites_W n ["dest"] 0, reroot_single,
      maxTLen_prependSeg _ _ (SW_ne_nil n 0)]
    omega
  rw [hfuel, matEntries_succ, headSegs_prependSeg,
    firstOccs_const "dest" _ (fun h => SW_ne_nil n 0 (List.map_eq_nil_iff.1 h))
      (fun x hx => by rcases List.mem_map.1 hx with ⟨_, _, h⟩; exact h.symm)]
  have hgrp : selectSeg "dest" (prependSeg "dest" (SW n 0)) = SW n 0 :=
    selectSeg_prependSeg_self _ _
  have hnode : (match (selectSeg "dest" (prependSeg "dest" (SW n 0))).find?
      (fun w => w.2.1.isEmpty) with
      | some (tv, _, rec) => FsNode.file tv rec
      | none =>
        FsNode.dir (match (selectSeg "dest" (prependSeg "dest" (SW n 0))).head? with
            | some (tv, _, _) => tv | none => 0)
          (match (selectSeg "dest" (prependSeg "dest" (SW n 0))).head? with
            | some (tv, _, _) => tv | none => 0)
          (matEntries (maxTLen (SW n 0)) (selectSeg "dest" (prependSeg "dest" (SW n 0))))) =
      exportFs n 0 := by
    rw [hgrp, find_isEmpty_none (SW_paths_ne_nil n 0)]
    obtain ⟨t, i, ti, u, d, lm, p, cs⟩ := n
    show FsNode.dir 0 0 (matEntries (maxTLen (SW (.mk t i ti u d lm p cs) 0))
        (SW (.mk t i ti u d lm p cs) 0)) = exportFs (.mk t i ti u d lm p cs) 0
    exact matEntries_SW _ 0 _ hwt hip hnd (maxTLen_SW_ge _ 0)
  rw [matSegs_eq_cons _ _ _ _ (exportFs n 0) hnode]
  rfl

/-! ## Importing the exported tree -/

theorem fsMtime_exportFs (c : Node) (t : Int) : fsMtime (exportFs c t) = t := by
  cases c with
  | mk tc ic tic uc dc lmc pc csc => rfl

theorem exportEntries_times : ∀ (cs : List Node) (t : Int),
    sortedM (exportEntries cs t) ∧ ∀ e ∈ exportEntries cs t, t ≤ fsMtime e.2 := by
  intro cs
  induction cs with
  | nil =>
    intro t
    exact ⟨List.Pairwise.nil, by intro e he; simp [exportEntries] at he⟩
  | cons c rest ih =>
    intro t
    simp only [exportEntries]
    by_cases hc : is_container c
    · rw [if_pos hc]
      rcases ih (t + wcount c) with ⟨hs, hb⟩
      have hwc := wcount_pos c
      constructor
      · apply List.pairwise_cons.2
        refine ⟨?_, hs⟩
        intro e he
        have h1 := hb e he
        show fsMtime (exportFs c t) ≤ fsMtime e.2
        rw [fsMtime_exportFs]
        omega
      · intro e he
        rcases List.mem_cons.1 he with he | he
        · rw [he]
          show t ≤ fsMtime (exportFs c t)
          rw [fsMtime_exportFs]
        · have h1 := hb e he
          omega
    · rw [if_neg hc]
      by_cases hbk : is_bookmark c
      · rw [if_pos hbk]
        rcases ih (t + 1) with ⟨hs, hb⟩
        constructor
        · apply List.pairwise_cons.2
          refine ⟨?_, hs⟩
          intro e he
          have h1 := hb e he
          show fsMtime (FsNode.file t c) ≤ fsMtime e.2
          show t ≤ fsMtime e.2
          omega
        · intro e he
          rcases List.mem_cons.1 he with he | he
          · rw [he]
            show t ≤ t
            omega
          · have h1 := hb e he
            omega
      · rw [if_neg hbk]
        rcases ih t with ⟨hs, hb⟩
        exact ⟨hs, hb⟩

theorem isFfurlName_info : isFfurlName CONTAINER_FILE_NAME = false := by decide

theorem isFfurlName_ffurl (s : String) : isFfurlName (s.append ".ffurl") = true := by
  unfold isFfurlName
  rw [data_append]
  exact List.isSuffixOf_iff_suffix.2 (List.suffix_append s.data ".ffurl".data)

theorem read_children_cons_dir (rc : String → FsNode → Except String Node)
    (fn : String) (m ct : Int) (es : List (String × FsNode)) (rest : List (String × FsNode))
    {child : Node} (h : rc fn (.dir m ct es) = .ok child)
    {others : List Node} (h2 : read_children rc rest = .ok others) :
    read_children rc ((fn, .dir m ct es) :: rest) = .ok (child :: others) := by
  simp only [read_children, h, h2]

theorem read_children_cons_ffurl (rc : String → FsNode → Except String Node)
    (fn : String) (m : Int) (rec : Node) (rest : List (String × FsNode))
    (hf : isFfurlName fn = true)
    {others : List Node} (h2 : read_children rc rest = .ok others) :
    read_children rc ((fn, .file m rec) :: rest) = .ok (update_title fn rec :: others) := by
  simp only [read_children, hf, h2, if_true]

theorem read_children_cons_skip (rc : String → FsNode → Except String Node)
    (fn : String) (m : Int) (rec : Node) (rest : List (String × FsNode))
    (hf : isFfurlName fn = false) :
    read_children rc ((fn, .file m rec) :: rest) = read_children rc rest := by
  simp only [read_children, hf, Bool.false_eq_true, if_false]

theorem read_container_dir (f : Nat) (name : String) (m ct : Int)
    (entries : List (String × FsNode)) (fn0 : String) (m0 : Int) (base : Node)
    (hfind : entries.find? (fun e => e.1 = CONTAINER_FILE_NAME) = some (fn0, FsNode.file m0 base))
    {kids : List Node}
    (hkids : read_children (read_container f) (sortByMtime entries) = .ok kids) :
    read_container (f + 1) name (.dir m ct entries) =
      .ok (update_title name
        (match base with | .mk t i ti u d lm p _ => .mk t i ti u d lm p kids)) := by
  simp only [read_container, hfind, hkids]
  cases base with
  | mk tb ib tib ub db lmb pb csb => rfl

theorem fsDepth_exportFs_ge : ∀ (n : Node) (tv : Int), cdepth n ≤ fsDepth (exportFs n tv) := by
  intro n
  induction n using nodeInd with
  | h t i ti u d lm p cs ihm =>
    intro tv
    have hl : ∀ (l : List Node), (∀ c ∈ l, ∀ tv, cdepth c ≤ fsDepth (exportFs c tv)) →
        ∀ tv, cdepthL l ≤ fsDepthL (exportEntries l tv) := by
      intro l
      induction l with
      | nil => intro _ _; exact Nat.zero_le _
      | cons c rest ih =>
        intro hm tv
        show max (if is_container c then cdepth c else 0) (cdepthL rest) ≤ _
        simp only [exportEntries]
        by_cases hc : is_container c
        · rw [if_pos hc, if_pos hc]
          show _ ≤ max (fsDepth (exportFs c tv)) (fsDepthL (exportEntries rest (tv + wcount c)))
          have h1 := hm c (List.mem_cons_self _ _) tv
          have h2 := ih (fun x hx => hm x (List.mem_cons_of_mem _ hx)) (tv + wcount c)
          omega
        · rw [if_neg hc, if_neg hc]
          by_cases hbk : is_bookmark c
          · rw [if_pos hbk]
            show _ ≤ max (fsDepth (FsNode.file tv c)) (fsDepthL (exportEntries rest (tv + 1)))
            have h2 := ih (fun x hx => hm x (List.mem_cons_of_mem _ hx)) (tv + 1)
            have h3 : fsDepth (FsNode.file tv c) = 1 := rfl
            rw [h3]
            omega
          · rw [if_neg hbk]
            have h2 := ih (fun x hx => hm x (List.mem_cons_of_mem _ hx)) tv
            omega
    have h4 := hl cs ihm (tv + 1)
    show 1 + cdepthL cs ≤ fsDepth (exportFs (.mk t i ti u d lm p cs) tv)
    show 1 + cdepthL cs ≤ 1 + max (fsDepth (FsNode.file tv (clearNode (.mk t i ti u d lm p cs))))
      (fsDepthL (exportEntries cs (tv + 1)))
    have h3 : fsDepth (FsNode.file tv (clearNode (.mk t i ti u d lm p cs))) = 1 := rfl
    rw [h3]
    omega

/-- Reading back the exported directory tree succeeds and reproduces the
shape of the original subtree. -/
theorem read_exportFs : ∀ (n : Node) (t0 : Int) (fuel : Nat) (name : String),
    wellTyped n = true → cdepth n ≤ fuel →
    ∃ r, read_container fuel name (exportFs n t0) = .ok r ∧ shapeOf r = shapeOf n := by
  intro n
  induction n using nodeInd with
  | h t i ti u d lm p cs ihm =>
    intro t0 fuel name hwt hfuel
    have hwtl : wellTypedL cs = true := by
      simp only [wellTyped, Bool.and_eq_true] at hwt
      exact hwt.2
    cases fuel with
    | zero =>
      exfalso
      have h1 := cdepth_pos (.mk t i ti u d lm p cs)
      omega
    | succ f =>
      have hdepl : cdepthL cs ≤ f := by
        have he : cdepth (.mk t i ti u d lm p cs) = 1 + cdepthL cs := rfl
        rw [he] at hfuel
        omega
      have hl : ∀ (l : List Node),
          (∀ c ∈ l, ∀ (t0 : Int) (fuel : Nat) (name : String), wellTyped c = true →
            cdepth c ≤ fuel →
            ∃ r, read_container fuel name (exportFs c t0) = .ok r ∧ shapeOf r = shapeOf c) →
          ∀ (tt : Int), wellTypedL l = true → cdepthL l ≤ f →
          ∃ rs, read_children (read_container f) (exportEntries l tt) = .ok rs ∧
            shapeOfL rs = shapeOfL l := by
        intro l
        induction l with
        | nil => intro _ tt _ _; exact ⟨[], rfl, rfl⟩
        | cons c rest ih =>
          intro hm tt hwl hdl
          simp only [wellTypedL, Bool.and_eq_true] at hwl
          have hdr : cdepthL rest ≤ f := by
            simp only [cdepthL] at hdl
            omega
          simp only [exportEntries]
          by_cases hc : is_container c
          · rw [if_pos hc]
            have hdc : cdepth c ≤ f :=
              le_trans (cdepthL_le_of_mem (List.mem_cons_self _ _) hc) hdl
            rcases hm c (List.mem_cons_self _ _) tt f (node_filename c) hwl.1 hdc with
              ⟨rc, hrc, hsc⟩
            rcases ih (fun x hx => hm x (List.mem_cons_of_mem _ hx)) (tt + wcount c)
              hwl.2 hdr with ⟨rs, hrs, hss⟩
            refine ⟨rc :: rs, ?_, ?_⟩
            · obtain ⟨tc, ic, tic, uc, dc, lmc, pc, csc⟩ := c
              have hfs : exportFs (.mk tc ic tic uc dc lmc pc csc) tt =
                  FsNode.dir tt tt ((CONTAINER_FILE_NAME,
                    FsNode.file tt (clearNode (.mk tc ic tic uc dc lmc pc csc))) ::
                    exportEntries csc (tt + 1)) := rfl
              rw [hfs] at hrc
              exact read_children_cons_dir _ _ _ _ _ _ hrc hrs
            · show shapeOf rc :: shapeOfL rs = shapeOf c :: shapeOfL rest
              rw [hsc, hss]
          · rw [if_neg hc]
            by_cases hbk : is_bookmark c
            · rw [if_pos hbk]
              rcases ih (fun x hx => hm x (List.mem_cons_of_mem _ hx)) (tt + 1)
                hwl.2 hdr with ⟨rs, hrs, hss⟩
              refine ⟨update_title ((node_filename c).append ".ffurl") c :: rs, ?_, ?_⟩
              · exact read_children_cons_ffurl _ _ _ _ _ (isFfurlName_ffurl _) hrs
              · show shapeOf (update_title ((node_filename c).append ".ffurl") c) :: shapeOfL rs =
                  shapeOf c :: shapeOfL rest
                rw [shapeOf_update_title, hss]
            · exfalso
              obtain ⟨tc, ic, tic, uc, dc, lmc, pc, csc⟩ := c
              have hwc := hwl.1
              simp only [wellTyped, Bool.and_eq_true, Bool.or_eq_true, decide_eq_true_eq] at hwc
              simp only [is_container, is_bookmark, Node.ntype, decide_eq_true_eq] at hc hbk
              rcases hwc.1 with h | h
              · exact hc h
              · exact hbk h
      rcases hl cs ihm (t0 + 1) hwtl hdepl with ⟨rs, hrs, hss⟩
      have hsorted : sortedM ((CONTAINER_FILE_NAME,
          FsNode.file t0 (clearNode (.mk t i ti u d lm p cs))) :: exportEntries cs (t0 + 1)) := by
        apply List.pairwise_cons.2
        refine ⟨?_, (exportEntries_times cs (t0 + 1)).1⟩
        intro e he
        have h1 := (exportEntries_times cs (t0 + 1)).2 e he
        show t0 ≤ fsMtime e.2
        omega
      have hsort : sortByMtime ((CONTAINER_FILE_NAME,
          FsNode.file t0 (clearNode (.mk t i ti u d lm p cs))) :: exportEntries cs (t0 + 1)) =
          (CONTAINER_FILE_NAME, FsNode.file t0 (clearNode (.mk t i ti u d lm p cs))) ::
            exportEntries cs (t0 + 1) :=
        sortByMtime_eq_self hsorted
      have hfind : ((CONTAINER_FILE_NAME,
          FsNode.file t0 (clearNode (.mk t i ti u d lm p cs))) ::
            exportEntries cs (t0 + 1)).find? (fun e => e.1 = CONTAINER_FILE_NAME) =
          some (CONTAINER_FILE_NAME, FsNode.file t0 (clearNode (.mk t i ti u d lm p cs))) :=
        List.find?_cons_of_pos _ (by simp)
      have hkids : read_children (read_container f)
          (sortByMtime ((CONTAINER_FILE_NAME,
            FsNode.file t0 (clearNode (.mk t i ti u d lm p cs))) ::
            exportEntries cs (t0 + 1))) = .ok rs := by
        rw [hsort, read_children_cons_skip _ _ _ _ _ isFfurlName_info]
        exact hrs
      refine ⟨update_title name (.mk t i ti u d lm p rs), ?_, ?_⟩
      · show read_container (f + 1) name (exportFs (.mk t i ti u d lm p cs) t0) = _
        have hfs : exportFs (.mk t i ti u d lm p cs) t0 =
            FsNode.dir t0 t0 ((CONTAINER_FILE_NAME,
              FsNode.file t0 (clearNode (.mk t i ti u d lm p cs))) ::
              exportEntries cs (t0 + 1)) := rfl
        rw [hfs]
        exact read_container_dir f name t0 t0 _ _ _ _ hfind hkids
      · rw [shapeOf_update_title]
        show (if t = some "text/x-moz-place" then Shape.bm u else .cont (shapeOfL rs)) =
          (if t = some "text/x-moz-place" then Shape.bm u else .cont (shapeOfL cs))
        rw [hss]

/-- A concrete well-formed tree exercising the round trip: a root
container holding a subfolder with one bookmark, plus a second top-level
bookmark. -/
def rtTree : Node :=
  .mk (some "text/x-moz-place-container") (some 10) "Root" none none none none
    [.mk (some "text/x-moz-place-container") (some 11) "Sub" none none none none
       [.mk (some "text/x-moz-place") (some 12) "A" (some "http://a") none none none []],
     .mk (some "text/x-moz-place") (some 13) "B" (some "http://b") none none none []]

/-- C1: structural round trip.  Exporting a well-formed tree (container
root, typed nodes, ids present and pairwise distinct, bookmarks
childless) into a fresh destination directory succeeds; materializing
its writes in creation order (the model in which entries created
earlier have strictly smaller mtimes) leaves exactly one directory
tree, and importing that tree back with dir2bookmarks succeeds with a
tree of the same shape: the same branching structure with the same
bookmark uri values in the same relative order. -/
theorem claim_C1 (n : Node) (h : goodTree n) :
    ∃ ft out,
      (bookmarks2dir n ["dest"] false).2 = none ∧
      materialize (bookmarks2dir n ["dest"] false).1.fs = [("dest", ft)] ∧
      dir2bookmarks "dest" ft = .ok out ∧
      shapeOf out = shapeOf n := by
  rcases h with ⟨hcont, hwt, hlv, hip, hnd⟩
  have hexp : bookmarks2dir n ["dest"] false =
      ({ seen := [] ++ dfsIds n, fs := [] ++ W n ["dest"] }, none) :=
    build_tree_ok n ["dest"] false ⟨[], []⟩ hwt hlv hip hcont hnd
      (fun j _ => List.not_mem_nil j) (cleanFor_nil _)
  rcases read_exportFs n 0 (fsDepth (exportFs n 0)) "dest" hwt (fsDepth_exportFs_ge n 0)
    with ⟨r, hr, hshape⟩
  refine ⟨exportFs n 0, uniquify_ids r, ?_, ?_, ?_, ?_⟩
  · rw [hexp]
  · rw [hexp]
    show materialize ([] ++ W n ["dest"]) = _
    rw [List.nil_append]
    exact materialize_W n hwt hip hnd
  · show dir2bookmarks "dest" (exportFs n 0) = _
    unfold dir2bookmarks
    rw [hr]
  · rw [shapeOf_uniquify, hshape]

/-- Witness for C1 at the concrete tree `rtTree`. -/
theorem claim_C1_witness :
    goodTree rtTree ∧
      ∃ ft out,
        (bookmarks2dir rtTree ["dest"] false).2 = none ∧
        materialize (bookmarks2dir rtTree ["dest"] false).1.fs = [("dest", ft)] ∧
        dir2bookmarks "dest" ft = .ok out ∧
        shapeOf out = shapeOf rtTree :=
  ⟨by decide, claim_C1 rtTree (by decide)⟩
end FFB
